import Mathlib

set_option maxHeartbeats 1000000
set_option maxRecDepth 4000

/-!
Verification development for the mdstream streaming Markdown renderer
(src/lib.rs).  Strings are modelled as `List Char` (Rust iterates over
`char`s, i.e. Unicode scalar values); the `RefCell` citation ledger and the
link-definition `HashMap` are modelled as explicitly threaded state; the two
external collaborators (the syntect `Highlighter` and the terminal-size
query) are abstracted as noted at their definitions.  Recursions that the
source expresses as index-based `while` loops are expressed either as
structural recursions over the remaining suffix (with an explicit scanner
mode where the source uses nested skipping loops) or with an explicit fuel
argument chosen large enough to cover every iteration the source performs.
-/

namespace Mdstream

/-- The ASCII escape character (0x1b) that introduces ANSI sequences. -/
def escC : Char := Char.ofNat 27

/-- The BEL character (0x07), an alternative OSC string terminator. -/
def belC : Char := Char.ofNat 7

/-- The backtick character (0x60) that delimits inline code spans. -/
def tickC : Char := Char.ofNat 96

/-- Rust `char::is_whitespace`: the Unicode White_Space property
(25 code points). -/
def isUniWs (c : Char) : Bool :=
  let n := c.toNat
  (0x09 ≤ n && n ≤ 0x0D) || n = 0x20 || n = 0x85 || n = 0xA0 || n = 0x1680 ||
  (0x2000 ≤ n && n ≤ 0x200A) || n = 0x2028 || n = 0x2029 || n = 0x202F ||
  n = 0x205F || n = 0x3000

/-- Rust `str::trim_start` (drop leading Unicode whitespace). -/
def trimStartL : List Char → List Char
  | [] => []
  | c :: r => if isUniWs c then trimStartL r else c :: r

/-- Rust `str::trim_end`. -/
def trimEndL (l : List Char) : List Char := (trimStartL l.reverse).reverse

/-- Rust `str::trim`. -/
def trimL (l : List Char) : List Char := trimEndL (trimStartL l)

/-- Rust `s.trim_end_matches(c)`: drop every trailing occurrence of `c`. -/
def trimEndMatches (ch : Char) (l : List Char) : List Char :=
  (l.reverse.dropWhile (fun c => c = ch)).reverse

/-- Number of leading whitespace characters
(`line.len() - line.trim_start().len()` in the source). -/
def leadingWs (l : List Char) : Nat := l.length - (trimStartL l).length

/-- Rust `str::split(sep)`: split at every separator, keeping empty pieces. -/
def splitOnChar (sep : Char) : List Char → List (List Char)
  | [] => [[]]
  | c :: r =>
    if c = sep then [] :: splitOnChar sep r
    else
      match splitOnChar sep r with
      | [] => [[c]]
      | h :: t => (c :: h) :: t

/-- Join pieces with a separator (Rust `Vec::join`). -/
def joinWith (sep : List Char) : List (List Char) → List Char
  | [] => []
  | [x] => x
  | x :: xs => x ++ sep ++ joinWith sep xs

/-- Fuel-driven worker for `replaceAll`; the fuel only bounds the loop and
`l.length` is always enough since every step consumes at least one
character. -/
def replaceAllF (fuel : Nat) (pat rep : List Char) (l : List Char) : List Char :=
  match fuel, l with
  | 0, l => l
  | _ + 1, [] => []
  | f + 1, c :: r =>
    if pat ≠ [] ∧ pat.isPrefixOf (c :: r) then
      rep ++ replaceAllF f pat rep ((c :: r).drop pat.length)
    else
      c :: replaceAllF f pat rep r

/-- Rust `str::replace`: replace every non-overlapping occurrence of `pat`,
scanning left to right. -/
def replaceAll (pat rep l : List Char) : List Char := replaceAllF l.length pat rep l

/-- Decimal rendering of a number, Rust `usize::to_string`. -/
def natStr (n : Nat) : List Char := (Nat.repr n).data

/-- Scanner mode for the ANSI-aware loops of `strip_ansi` and the
`wrap_text` tokenizer.  The source writes these as nested index loops; the
modes are: `normal` scanning, `esc` just after a bare ESC, `sgr` inside
`ESC [ ... m`, `osc` inside `ESC ] ...`, and `oscEsc` inside an OSC after an
ESC (looking for the closing backslash). -/
inductive AnsiMode
  | normal
  | esc
  | sgr
  | osc
  | oscEsc
deriving DecidableEq, Repr

/-- Single-pass form of the scanning loop of `StreamingParser::strip_ansi`:
SGR sequences are skipped up to and including the `m`, OSC sequences up to
`ESC \` or BEL, a bare ESC plus one character is skipped, and every other
character is kept. -/
def stripGo : AnsiMode → List Char → List Char
  | _, [] => []
  | .normal, c :: r => if c = escC then stripGo .esc r else c :: stripGo .normal r
  | .esc, c :: r => if c = '[' then stripGo .sgr r else if c = ']' then stripGo .osc r else stripGo .normal r
  | .sgr, c :: r => if c = 'm' then stripGo .normal r else stripGo .sgr r
  | .osc, c :: r => if c = escC then stripGo .oscEsc r else if c = belC then stripGo .normal r else stripGo .osc r
  | .oscEsc, c :: r =>
    if c = '\\' then stripGo .normal r
    else if c = escC then stripGo .oscEsc r
    else if c = belC then stripGo .normal r
    else stripGo .osc r

/-- `StreamingParser::strip_ansi`. -/
def stripAnsi (l : List Char) : List Char := stripGo .normal l

/-- The tokenizing loop of `StreamingParser::wrap_text`: split on Unicode
whitespace, but keep ANSI escape sequences glued to the current token (the
escape-skipping structure mirrors `strip_ansi`, pushing the skipped
characters instead of dropping them). -/
def tokGo : AnsiMode → List Char → List Char → List (List Char)
  | _, cur, [] => if cur = [] then [] else [cur]
  | .normal, cur, c :: r =>
    if c = escC then tokGo .esc (cur ++ [c]) r
    else if isUniWs c then
      (if cur = [] then tokGo .normal [] r else cur :: tokGo .normal [] r)
    else tokGo .normal (cur ++ [c]) r
  | .esc, cur, c :: r =>
    if c = '[' then tokGo .sgr (cur ++ [c]) r
    else if c = ']' then tokGo .osc (cur ++ [c]) r
    else tokGo .normal (cur ++ [c]) r
  | .sgr, cur, c :: r => if c = 'm' then tokGo .normal (cur ++ [c]) r else tokGo .sgr (cur ++ [c]) r
  | .osc, cur, c :: r =>
    if c = escC then tokGo .oscEsc (cur ++ [c]) r
    else if c = belC then tokGo .normal (cur ++ [c]) r
    else tokGo .osc (cur ++ [c]) r
  | .oscEsc, cur, c :: r =>
    if c = '\\' then tokGo .normal (cur ++ [c]) r
    else if c = escC then tokGo .oscEsc (cur ++ [c]) r
    else if c = belC then tokGo .normal (cur ++ [c]) r
    else tokGo .osc (cur ++ [c]) r

/-- The token list `wrap_text` builds before its greedy packing loop. -/
def wrapTokens (l : List Char) : List (List Char) := tokGo .normal [] l

/-- Visible width of one token as the source measures it:
`strip_ansi(token).chars().count()`. -/
def tokWidth (t : List Char) : Nat := (stripAnsi t).length

/-- Loop state of the greedy packing loop of `wrap_text`
(`lines`, `current_line`, `current_width`, `is_first_line`). -/
structure WrapSt where
  lines : List (List Char)
  cl : List Char
  cw : Nat
  first : Bool
deriving Repr, DecidableEq

/-- One iteration of the greedy packing loop of `wrap_text`. -/
def wrapStep (width : Nat) (fi ci : List Char) (st : WrapSt) (t : List Char) : WrapSt :=
  let tw := tokWidth t
  let iw := if st.first then fi.length else ci.length
  if st.cw > iw then
    if st.cw + 1 + tw > width then
      { lines := st.lines ++ [st.cl], cl := ci ++ t, cw := ci.length + tw, first := false }
    else
      { st with cl := st.cl ++ [' '] ++ t, cw := st.cw + 1 + tw }
  else
    { st with cl := st.cl ++ t, cw := st.cw + tw }

/-- The post-loop fixup of `wrap_text`: push the pending line unless it is
empty or equals one of the indents; if nothing was pushed at all, emit the
first indent alone. -/
def wrapFinish (fi ci : List Char) (st : WrapSt) : List (List Char) :=
  if st.cl ≠ [] ∧ st.cl ≠ fi ∧ st.cl ≠ ci then st.lines ++ [st.cl]
  else if st.lines = [] then [fi]
  else st.lines

/-- The list of lines `wrap_text` produces on the non-empty-token path. -/
def wrapLines (width : Nat) (text fi ci : List Char) : List (List Char) :=
  wrapFinish fi ci ((wrapTokens text).foldl (wrapStep width fi ci) ⟨[], fi, fi.length, true⟩)

/-- `StreamingParser::wrap_text` (the `self.width` field is passed
explicitly): empty token list returns the first indent plus a newline,
otherwise the greedy lines joined with newlines. -/
def wrapText (width : Nat) (text fi ci : List Char) : List Char :=
  if wrapTokens text = [] then fi ++ ['\n']
  else joinWith ['\n'] (wrapLines width text fi ci)

-- Sanity checks against hand-executions of the source.
example : stripAnsi ("ab".data) = "ab".data := by decide
example : stripAnsi (escC :: "[1m".data ++ "x".data ++ escC :: "[0m".data) = ['x'] := by decide
example : wrapText 5 "abc".data "    ".data "".data = "    abc".data := by decide
example : wrapText 80 "".data "AB".data "CD".data = "AB\n".data := by decide
example : wrapText 7 "ab cd ef".data "".data "".data = "ab cd\nef".data := by decide

/-- The slice `chars[a..b]` of the source (char positions). -/
def seg (chars : List Char) (a b : Nat) : List Char := (chars.drop a).take (b - a)

/-- Worker for `find_closing`: the offset of the first position of the list
at which `m` occurs as a prefix. -/
def findClosingAux (m : List Char) : List Char → Option Nat
  | [] => if m.isPrefixOf ([] : List Char) then some 0 else none
  | c :: r => if m.isPrefixOf (c :: r) then some 0 else (findClosingAux m r).map (· + 1)

/-- `StreamingParser::find_closing`: first index at or after `start` where
the marker text occurs. -/
def findClosing (marker chars : List Char) (start : Nat) : Option Nat :=
  (findClosingAux marker (chars.drop start)).map (· + start)

/-- Rust `str::find` of a literal pattern (same scan as `find_closing`). -/
def indexOfSub (pat l : List Char) : Option Nat := findClosingAux pat l

/-- First index at or after `pos` holding character `c` (the
`while ... != c` scans of the source). -/
def findCharFrom (chars : List Char) (pos : Nat) (c : Char) : Option Nat :=
  ((chars.drop pos).findIdx? (fun x => x = c)).map (· + pos)

/-- The static `HTML_ENTITIES` lookup table. -/
def htmlEntities : List (List Char × Char) :=
  [("amp".data, '&'), ("lt".data, '<'), ("gt".data, '>'), ("quot".data, '"'),
   ("apos".data, '\''), ("nbsp".data, Char.ofNat 0xA0), ("ndash".data, '–'),
   ("mdash".data, '—'), ("hellip".data, '…'), ("lsquo".data, Char.ofNat 0x2018),
   ("rsquo".data, Char.ofNat 0x2019), ("ldquo".data, Char.ofNat 0x201C),
   ("rdquo".data, Char.ofNat 0x201D), ("bull".data, '•'), ("middot".data, '·'),
   ("copy".data, '©'), ("reg".data, '®'), ("trade".data, '™'), ("deg".data, '°'),
   ("plusmn".data, '±'), ("times".data, '×'), ("divide".data, '÷'),
   ("frac14".data, '¼'), ("frac12".data, '½'), ("frac34".data, '¾'),
   ("cent".data, '¢'), ("pound".data, '£'), ("euro".data, '€'), ("yen".data, '¥'),
   ("larr".data, '←'), ("rarr".data, '→'), ("uarr".data, '↑'), ("darr".data, '↓')]

/-- Lookup in the entity table (`HashMap::get` keyed by the entity name). -/
def lookupEntity (name : List Char) : Option Char :=
  (htmlEntities.find? (fun e => e.1 == name)).map (·.2)

/-- The name-scanning loop of `decode_html_entity`: how many characters
after the ampersand belong to the entity (stops at a semicolon, whitespace,
a second ampersand, or any character that is neither ASCII alphanumeric nor
a hash; the cap of 11 mirrors the source bound `end - start < 12`). -/
def entScan : Nat → List Char → Nat
  | _, [] => 0
  | 0, _ => 0
  | k + 1, c :: r =>
    if c = ';' then 0
    else if isUniWs c ∨ c = '&' then 0
    else if ¬(c.isAlphanum ∨ c = '#') then 0
    else 1 + entScan k r

/-- Rust `u32::from_str` on a digit string (errors on overflow past
`u32::MAX`). -/
def parseDecU32 (l : List Char) : Option Nat :=
  if l = [] then none
  else if l.all (fun c => c.isDigit) then
    let v := l.foldl (fun a c => a * 10 + (c.toNat - 48)) 0
    if v ≤ 4294967295 then some v else none
  else none

/-- Value of one hexadecimal digit. -/
def hexDigitVal (c : Char) : Option Nat :=
  if c.isDigit then some (c.toNat - 48)
  else if 'a' ≤ c ∧ c ≤ 'f' then some (c.toNat - 87)
  else if 'A' ≤ c ∧ c ≤ 'F' then some (c.toNat - 55)
  else none

/-- One step of hexadecimal accumulation (a digit folded into the running
value, failing on a non-hex digit or on overflow past `u32::MAX`). -/
def hexStep (acc : Option Nat) (c : Char) : Option Nat :=
  match acc, hexDigitVal c with
  | some a, some d => if a * 16 + d ≤ 4294967295 then some (a * 16 + d) else none
  | _, _ => none

/-- Rust `u32::from_str_radix(_, 16)` (errors on empty input, a non-hex
digit, or overflow past `u32::MAX`). -/
def parseHexU32 (l : List Char) : Option Nat :=
  if l = [] then none else l.foldl hexStep (some 0)

/-- Rust `strip_prefix` for string patterns. -/
def stripPre (p l : List Char) : Option (List Char) :=
  if p.isPrefixOf l then some (l.drop p.length) else none

/-- Rust `char::from_u32`: rejects surrogates and values above 0x10FFFF. -/
def charFromU32 (n : Nat) : Option Char :=
  if n < 0x110000 ∧ ¬(0xD800 ≤ n ∧ n ≤ 0xDFFF) then some (Char.ofNat n) else none

/-- `decode_html_entity`: named (`&amp;`), decimal (`&#65;`) and hex
(`&#x41;`) entities, returning the decoded character and the number of
characters consumed; the terminating semicolon is optional and is consumed
only when present. -/
def decodeHtmlEntity (chars : List Char) (start : Nat) : Option (Char × Nat) :=
  match chars.get? start with
  | some c =>
    if c = '&' then
      let rest := chars.drop (start + 1)
      let count := entScan 11 rest
      let hasSemi := chars.get? (start + 1 + count) = some ';'
      if count = 0 then none
      else
        let content := rest.take count
        match stripPre ['#'] content with
        | some numStr =>
          let codepoint :=
            match (stripPre ['x'] numStr).orElse (fun _ => stripPre ['X'] numStr) with
            | some hex => parseHexU32 hex
            | none => parseDecU32 numStr
          match codepoint with
          | none => none
          | some v =>
            (charFromU32 v).map (fun ch => (ch, if hasSemi then count + 2 else count + 1))
        | none => (lookupEntity content).map (fun ch => (ch, if hasSemi then count + 2 else count + 1))
    else none
  | none => none

/-- The reference-resolver state of the parser: the link-definition table
(`link_definitions`, a `HashMap` modelled as an insertion-ordered
association list with unique keys), the pending-citation ledger and the
next citation number (the two `RefCell` fields, threaded explicitly). -/
structure Refs where
  linkDefs : List (List Char × (List Char × Option (List Char)))
  citations : List (Nat × List Char × List Char)
  nextCitation : Nat
deriving Repr, DecidableEq

/-- The resolver state of a freshly constructed parser. -/
def Refs.init : Refs := ⟨[], [], 1⟩

/-- `HashMap::get` on the link-definition table. -/
def lookupDef (defs : List (List Char × (List Char × Option (List Char))))
    (k : List Char) : Option (List Char × Option (List Char)) :=
  (defs.find? (fun e => e.1 == k)).map (·.2)

/-- `link_definitions.entry(k).or_insert(v)`: first writer wins. -/
def insertIfAbsent (defs : List (List Char × (List Char × Option (List Char))))
    (k : List Char) (v : List Char × Option (List Char)) :
    List (List Char × (List Char × Option (List Char))) :=
  if (defs.find? (fun e => e.1 == k)).isSome then defs else defs ++ [(k, v)]

/-- Rust `str::split_whitespace`: maximal runs of non-whitespace. -/
def swGo (cur : List Char) : List Char → List (List Char)
  | [] => if cur = [] then [] else [cur]
  | c :: r =>
    if isUniWs c then (if cur = [] then swGo [] r else cur :: swGo [] r)
    else swGo (cur ++ [c]) r

/-- `normalize_link_label`: trim, collapse internal whitespace to single
spaces, lowercase.  Rust `to_lowercase` is modelled on the ASCII range via
`Char.toLower` (the source's own comment reads "lowercase for ASCII"). -/
def normalizeLinkLabel (l : List Char) : List Char :=
  (joinWith [' '] (swGo [] l)).map Char.toLower

/-- The citation-allocation step of `render_reference_link`: take the next
number, bump the counter, push the ledger entry. -/
def allocCitation (r : Refs) (label text : List Char) : Nat × Refs :=
  (r.nextCitation,
   { r with
     citations := r.citations ++ [(r.nextCitation, label, text)],
     nextCitation := r.nextCitation + 1 })

/-- An SGR sequence `ESC [ code m`. -/
def sgr (code : String) : List Char := escC :: '[' :: code.data ++ ['m']

/-- The OSC8 hyperlink opener `ESC ] 8 ; ; url ESC \`. -/
def osc8Open (url : List Char) : List Char := escC :: ']' :: "8;;".data ++ url ++ [escC, '\\']

/-- The OSC8 hyperlink closer `ESC ] 8 ; ; ESC \`. -/
def osc8Close : List Char := escC :: ']' :: "8;;".data ++ [escC, '\\']

/-- Result of `parse_link`. -/
structure LinkData where
  text : List Char
  url : List Char
  endPos : Nat

/-- Result of `parse_image`. -/
structure ImageData where
  alt : List Char
  src : List Char
  endPos : Nat

/-- Result of `parse_reference_link`. -/
structure ReferenceLinkData where
  text : List Char
  label : List Char
  endPos : Nat

/-- Result of `parse_html_tag`. -/
structure HtmlTagResult where
  formatted : List Char
  endPos : Nat

/-- The text before the first whitespace character, if any whitespace
occurs (Rust `content.find(char::is_whitespace)` followed by slicing). -/
def beforeFirstWs (l : List Char) : Option (List Char) :=
  if l.any (fun c => isUniWs c) then some (l.takeWhile (fun c => ¬ isUniWs c)) else none

/-- `parse_link`: `[text](url)` with an optional whitespace-separated title
that is dropped. -/
def parseLink (chars : List Char) (start : Nat) : Option LinkData :=
  match findClosing [']'] chars (start + 1) with
  | none => none
  | some textEnd =>
    if chars.get? (textEnd + 1) = some '(' then
      match findClosing [')'] chars (textEnd + 2) with
      | none => none
      | some urlEnd =>
        let text := seg chars (start + 1) textEnd
        let linkContent := trimL (seg chars (textEnd + 2) urlEnd)
        let url :=
          match beforeFirstWs linkContent with
          | some p => trimL p
          | none => linkContent
        some ⟨text, url, urlEnd + 1⟩
    else none

/-- `parse_image`: `![alt](src)` with an optional title that is dropped. -/
def parseImage (chars : List Char) (start : Nat) : Option ImageData :=
  if chars.get? start = some '!' ∧ chars.get? (start + 1) = some '[' then
    match findClosing [']'] chars (start + 2) with
    | none => none
    | some textEnd =>
      if chars.get? (textEnd + 1) = some '(' then
        match findClosing [')'] chars (textEnd + 2) with
        | none => none
        | some urlEnd =>
          let alt := seg chars (start + 2) textEnd
          let srcContent := trimL (seg chars (textEnd + 2) urlEnd)
          let src :=
            match beforeFirstWs srcContent with
            | some p => trimL p
            | none => srcContent
          some ⟨alt, src, urlEnd + 1⟩
      else none
  else none

/-- `parse_reference_link`: `[text][label]`, `[label][]` or `[label]`. -/
def parseReferenceLink (chars : List Char) (start : Nat) : Option ReferenceLinkData :=
  match findClosing [']'] chars (start + 1) with
  | none => none
  | some textEnd =>
    let text := seg chars (start + 1) textEnd
    if trimL text = [] then none
    else
      let afterBracket := textEnd + 1
      if chars.get? afterBracket = some '[' then
        match findClosing [']'] chars (afterBracket + 1) with
        | none => none
        | some labelEnd =>
          let label := seg chars (afterBracket + 1) labelEnd
          if label = [] then some ⟨text, text, labelEnd + 1⟩
          else some ⟨text, label, labelEnd + 1⟩
      else if chars.get? afterBracket = some '(' then none
      else some ⟨text, text, textEnd + 1⟩

/-- `render_image` with the `ImageProtocol::None` configuration modelled
here: the Markdown image syntax is echoed verbatim (the Kitty protocol path
performs I/O through the ImageBackend collaborator and is out of scope). -/
def renderImage (alt src : List Char) : List Char :=
  "![".data ++ alt ++ "](".data ++ src ++ [')']

/-- `render_reference_link`, parametrised by the recursive inline formatter
(`fmt` threads the resolver state): a defined label renders as an OSC8
hyperlink; an undefined one allocates the next citation number, pushes a
ledger entry, and renders `text[n]`. -/
def renderReferenceLink (fmt : Refs → List Char → List Char × Refs) (r : Refs)
    (rl : ReferenceLinkData) : List Char × Refs :=
  match lookupDef r.linkDefs (normalizeLinkLabel rl.label) with
  | some (url, _) =>
    let fr := fmt r rl.text
    (osc8Open url ++ sgr "34;4" ++ fr.1 ++ sgr "0" ++ osc8Close, fr.2)
  | none =>
    let ar := allocCitation r rl.label rl.text
    let fr := fmt ar.2 rl.text
    (fr.1 ++ ['['] ++ natStr ar.1 ++ [']'], fr.2)

/-- `extract_attr`: locate the (case-insensitively matched) attribute name,
expect `=`, and read a double-quoted, single-quoted or unquoted value. -/
def extractAttr (tagContent attrName : List Char) : Option (List Char) :=
  match indexOfSub (attrName.map Char.toLower) (tagContent.map Char.toLower) with
  | none => none
  | some pos =>
    let afterAttr := tagContent.drop (pos + attrName.length)
    match trimStartL afterAttr with
    | '=' :: rest =>
      let afterEq := trimStartL rest
      match afterEq with
      | '"' :: rest2 =>
        if rest2.any (fun c => c = '"') then some (rest2.takeWhile (fun c => c ≠ '"')) else none
      | '\'' :: rest2 =>
        if rest2.any (fun c => c = '\'') then some (rest2.takeWhile (fun c => c ≠ '\'')) else none
      | _ => some (afterEq.takeWhile (fun c => ¬ isUniWs c ∧ c ≠ '>'))
    | _ => none

/-- `extract_href`. -/
def extractHref (tagContent : List Char) : Option (List Char) :=
  extractAttr tagContent "href".data

/-- Rust `str::lines`: split on `\n`, drop one trailing `\r` per line, no
trailing empty line. -/
def rustLines (l : List Char) : List (List Char) :=
  if l = [] then []
  else
    let ps := splitOnChar '\n' l
    let ps := if ps.getLast? = some [] then ps.dropLast else ps
    ps.map (fun p => if p.getLast? = some '\r' then p.dropLast else p)

/-- The closing-tag search loop of `parse_html_tag` with its depth counter;
`fuel` bounds the loop (the search position strictly increases, so
`chars.length + 1` is always enough).  Returns the start of the closing tag
and the position just past its `>`. -/
def findPairEnd (fuel : Nat) (closingTag openTag chars : List Char)
    (searchPos depth : Nat) : Option (Nat × Nat) :=
  match fuel with
  | 0 => none
  | f + 1 =>
    if searchPos < chars.length then
      if chars.get? searchPos = some '<' then
        let remLower := (chars.drop searchPos).map Char.toLower
        if closingTag.isPrefixOf remLower then
          let closeEnd :=
            match findCharFrom chars searchPos '>' with
            | some k => k
            | none => chars.length
          if depth = 1 then some (searchPos, closeEnd + 1)
          else findPairEnd f closingTag openTag chars (closeEnd + 1) (depth - 1)
        else if openTag.isPrefixOf remLower then
          let ncPos := searchPos + openTag.length
          let bump :=
            match chars.get? ncPos with
            | some c => if c = '>' ∨ c = ' ' ∨ c = '/' then 1 else 0
            | none => 0
          findPairEnd f closingTag openTag chars (searchPos + 1) (depth + bump)
        else findPairEnd f closingTag openTag chars (searchPos + 1) depth
      else findPairEnd f closingTag openTag chars (searchPos + 1) depth
    else none

/-- The self-closing branch of `parse_html_tag` (tag content ends in `/`):
`br` becomes a newline, `img` extracts `src`/`alt`, everything else is
dropped. -/
def renderSelfClosing (tagTrimmed : List Char) (tagEnd : Nat) : HtmlTagResult :=
  let tagName := (tagTrimmed.takeWhile Char.isAlphanum).map Char.toLower
  if tagName = "br".data then ⟨['\n'], tagEnd + 1⟩
  else if tagName = "img".data then
    match extractAttr tagTrimmed "src".data with
    | some src => ⟨renderImage ((extractAttr tagTrimmed "alt".data).getD []) src, tagEnd + 1⟩
    | none => ⟨[], tagEnd + 1⟩
  else ⟨[], tagEnd + 1⟩

/-- The void-element branch of `parse_html_tag` (`img`, `br`, `hr`, `meta`,
`link`, `input` without a closing tag). -/
def renderVoidTag (tagNameCheck tagContent : List Char) (tagEnd : Nat) : HtmlTagResult :=
  if tagNameCheck = "br".data then ⟨['\n'], tagEnd + 1⟩
  else if tagNameCheck = "img".data then
    match extractAttr tagContent "src".data with
    | some src => ⟨renderImage ((extractAttr tagContent "alt".data).getD []) src, tagEnd + 1⟩
    | none => ⟨[], tagEnd + 1⟩
  else ⟨[], tagEnd + 1⟩

/-- The per-tag-kind rendering of a matched paired tag in
`parse_html_tag`: emphasis and friends recursively format the inner span,
`code`/`pre` keep it literal, `a` wraps it in an OSC8 hyperlink, unknown
tags are stripped. -/
def renderPairedTag (fmt : Refs → List Char → List Char × Refs) (r : Refs)
    (tagName tagContent inner : List Char) (endPos : Nat) : HtmlTagResult × Refs :=
  if tagName = "em".data ∨ tagName = "i".data then
    let fr := fmt r inner
    (⟨sgr "3" ++ fr.1 ++ sgr "0", endPos⟩, fr.2)
  else if tagName = "strong".data ∨ tagName = "b".data then
    let fr := fmt r inner
    (⟨sgr "1" ++ fr.1 ++ sgr "0", endPos⟩, fr.2)
  else if tagName = "u".data then
    let fr := fmt r inner
    (⟨sgr "4" ++ fr.1 ++ sgr "0", endPos⟩, fr.2)
  else if tagName = "s".data ∨ tagName = "strike".data ∨ tagName = "del".data then
    let fr := fmt r inner
    (⟨sgr "9" ++ fr.1 ++ sgr "0", endPos⟩, fr.2)
  else if tagName = "code".data then
    (⟨sgr "38;5;167;48;5;235" ++ [' '] ++ inner ++ [' '] ++ sgr "0", endPos⟩, r)
  else if tagName = "pre".data then
    let pieces := (rustLines inner).map
      (fun line => sgr "38;5;167;48;5;235" ++ [' '] ++ line ++ [' '] ++ sgr "0" ++ ['\n'])
    (⟨pieces.flatten, endPos⟩, r)
  else if tagName = "a".data then
    let fr := fmt r inner
    match extractHref tagContent with
    | some url =>
      (⟨osc8Open url ++ sgr "34;4" ++ fr.1 ++ sgr "0" ++ osc8Close, endPos⟩, fr.2)
    | none => (⟨fr.1, endPos⟩, fr.2)
  else
    let fr := fmt r inner
    (⟨fr.1, endPos⟩, fr.2)

/-- `parse_html_tag`, parametrised by the recursive inline formatter:
comments are elided, self-closing and void elements are terminal, paired
tags are matched with the depth counter of `findPairEnd` and rendered per
tag kind. -/
def parseHtmlTag (fmt : Refs → List Char → List Char × Refs) (r : Refs)
    (chars : List Char) (start : Nat) : Option (HtmlTagResult × Refs) :=
  if chars.get? start ≠ some '<' then none
  else if chars.get? (start + 1) = some '!' ∧ chars.get? (start + 2) = some '-' ∧
      chars.get? (start + 3) = some '-' then
    match indexOfSub "-->".data (chars.drop (start + 4)) with
    | some off => some (⟨[], start + 4 + off + 3⟩, r)
    | none => none
  else
    match findCharFrom chars (start + 1) '>' with
    | none => none
    | some tagEnd =>
      let tagContent := trimL (seg chars (start + 1) tagEnd)
      if tagContent.getLast? = some '/' then
        some (renderSelfClosing (trimL (trimEndMatches '/' tagContent)) tagEnd, r)
      else
        let tagNameCheck := (tagContent.takeWhile Char.isAlphanum).map Char.toLower
        if tagNameCheck = "img".data ∨ tagNameCheck = "br".data ∨ tagNameCheck = "hr".data ∨
            tagNameCheck = "meta".data ∨ tagNameCheck = "link".data ∨
            tagNameCheck = "input".data then
          some (renderVoidTag tagNameCheck tagContent tagEnd, r)
        else if tagNameCheck = [] then none
        else
          match findPairEnd (chars.length + 1) ("</".data ++ tagNameCheck) ('<' :: tagNameCheck)
              chars (tagEnd + 1) 1 with
          | none => none
          | some (innerEnd, endPos) =>
            some (renderPairedTag fmt r tagNameCheck tagContent
              (seg chars (tagEnd + 1) innerEnd) endPos)

/-- The scan loop of `format_inline`: at position `i`, try the branches in
source order (image, inline link, reference link, strikethrough, bold,
italic, inline code, underscore bold, underscore italic, HTML tag, HTML
entity), else copy one literal character.  `fuel` decreases on every step
and on every recursive formatting of an inner span; a fuel of zero returns
the output accumulated so far (the source loop always terminates, so any
sufficiently large fuel computes the same result as the source). -/
def fiGo (fuel : Nat) (chars : List Char) (r : Refs) (i : Nat) (acc : List Char) :
    List Char × Refs :=
  match fuel with
  | 0 => (acc, r)
  | f + 1 =>
    match chars.get? i with
    | none => (acc, r)
    | some c =>
      match (if c = '!' then parseImage chars i else none) with
      | some img => fiGo f chars r img.endPos (acc ++ renderImage img.alt img.src)
      | none =>
      match (if c = '[' then parseLink chars i else none) with
      | some link =>
        let fr := fiGo f link.text r 0 []
        fiGo f chars fr.2 link.endPos
          (acc ++ osc8Open link.url ++ sgr "34;4" ++ fr.1 ++ sgr "0" ++ osc8Close)
      | none =>
      match (if c = '[' then parseReferenceLink chars i else none) with
      | some rl =>
        let fr := renderReferenceLink (fun r0 s0 => fiGo f s0 r0 0 []) r rl
        fiGo f chars fr.2 rl.endPos (acc ++ fr.1)
      | none =>
      match (if c = '~' ∧ chars.get? (i + 1) = some '~' then findClosing "~~".data chars (i + 2) else none) with
      | some e =>
        let fr := fiGo f (seg chars (i + 2) e) r 0 []
        fiGo f chars fr.2 (e + 2) (acc ++ sgr "9" ++ fr.1 ++ sgr "0")
      | none =>
      match (if c = '*' ∧ chars.get? (i + 1) = some '*' then findClosing "**".data chars (i + 2) else none) with
      | some e =>
        let fr := fiGo f (seg chars (i + 2) e) r 0 []
        fiGo f chars fr.2 (e + 2) (acc ++ sgr "1" ++ fr.1 ++ sgr "0")
      | none =>
      match (if c = '*' then findClosing ['*'] chars (i + 1) else none) with
      | some e =>
        let fr := fiGo f (seg chars (i + 1) e) r 0 []
        fiGo f chars fr.2 (e + 1) (acc ++ sgr "3" ++ fr.1 ++ sgr "0")
      | none =>
      match (if c = tickC then findClosing [tickC] chars (i + 1) else none) with
      | some e =>
        fiGo f chars r (e + 1)
          (acc ++ sgr "38;5;167;48;5;235" ++ [' '] ++ seg chars (i + 1) e ++ [' '] ++ sgr "0")
      | none =>
      match (if c = '_' ∧ chars.get? (i + 1) = some '_' then findClosing "__".data chars (i + 2) else none) with
      | some e =>
        let fr := fiGo f (seg chars (i + 2) e) r 0 []
        fiGo f chars fr.2 (e + 2) (acc ++ sgr "1" ++ fr.1 ++ sgr "0")
      | none =>
      match (if c = '_' then findClosing ['_'] chars (i + 1) else none) with
      | some e =>
        let fr := fiGo f (seg chars (i + 1) e) r 0 []
        fiGo f chars fr.2 (e + 1) (acc ++ sgr "3" ++ fr.1 ++ sgr "0")
      | none =>
      match (if c = '<' then parseHtmlTag (fun r0 s0 => fiGo f s0 r0 0 []) r chars i else none) with
      | some pr => fiGo f chars pr.2 pr.1.endPos (acc ++ pr.1.formatted)
      | none =>
      match (if c = '&' then decodeHtmlEntity chars i else none) with
      | some (ch, consumed) => fiGo f chars r (i + consumed) (acc ++ [ch])
      | none => fiGo f chars r (i + 1) (acc ++ [c])

/-- `StreamingParser::format_inline` with explicit fuel. -/
def formatInline (fuel : Nat) (r : Refs) (s : List Char) : List Char × Refs :=
  fiGo fuel s r 0 []

/-- A fuel bound comfortably above the work `format_inline` performs on
`s` (each scan position costs one unit and nesting strictly shrinks the
span, so the quadratic bound dominates). -/
def fiFuel (s : List Char) : Nat := (s.length + 2) * (s.length + 2)

/-- `format_inline` at the default fuel, as invoked by block renderers. -/
def formatInlineTop (r : Refs) (s : List Char) : List Char × Refs :=
  formatInline (fiFuel s) r s

-- Sanity checks against the source and the repository's unit tests.
example : (formatInline 100 Refs.init "&amp".data).1 = ['&'] := by decide
example : (formatInline 100 Refs.init "a &#65 b".data).1 = "a A b".data := by decide
example :
    (formatInline 100 Refs.init "\\*not emphasis*".data).1 =
      '\\' :: (sgr "3" ++ "not emphasis".data ++ sgr "0") := by decide

/-- Column alignment in tables. -/
inductive Alignment
  | left
  | center
  | right
deriving DecidableEq, Repr

/-- List item type. -/
inductive ListItemType
  | unordered
  | ordered
deriving DecidableEq, Repr

/-- `ParserState`. -/
inductive ParserState
  | ready
  | inParagraph
  | inCodeBlock (info fence : List Char) (indentOffset : Nat)
  | inList
  | inListAfterBlank
  | inTable
  | inBlockquote (nestingLevel : Nat)
deriving DecidableEq, Repr

/-- `BlockBuilder`. -/
inductive BlockBuilder
  | none
  | paragraph (lines : List (List Char))
  | codeBlock (lines : List (List Char)) (info : List Char)
  | list (items : List (Nat × ListItemType × List Char))
  | table (header : List (List Char)) (alignments : List Alignment)
      (rows : List (List (List Char)))
  | blockquote (lines : List (Nat × List Char)) (currentNesting : Nat)
deriving DecidableEq, Repr

/-- The `StreamingParser` fields this embedding covers: the chunk buffer,
the block state machine, the resolver state and the configured width.  The
image protocol is fixed to `ImageProtocol::None` (the Kitty path performs
I/O), so the image cache and prefetch fan-out are omitted; the theme only
feeds the abstracted highlighter. -/
structure Parser where
  buffer : List Char
  state : ParserState
  current : BlockBuilder
  refs : Refs
  width : Nat
deriving Repr, DecidableEq

/-- A freshly constructed parser (`with_width`, protocol `None`). -/
def initParser (w : Nat) : Parser := ⟨[], .ready, .none, Refs.init, w⟩

/-- A three-backtick fence token. -/
def fence3 : List Char := [tickC, tickC, tickC]

/-- `parse_atx_heading`: count leading hashes (at most six), require a
space. -/
def atxGo : Nat → List Char → Option Nat
  | _, [] => none
  | level, c :: r =>
    if c = '#' then (if level + 1 > 6 then none else atxGo (level + 1) r)
    else if c = ' ' ∧ level > 0 then some level
    else none

/-- `parse_atx_heading`. -/
def parseAtxHeading (l : List Char) : Option Nat := atxGo 0 l

/-- `parse_setext_underline`: up to three leading spaces, then all `=`
(level 1) or all `-` (level 2). -/
def parseSetextUnderline (l : List Char) : Option Nat :=
  if leadingWs l > 3 then none
  else
    let t := trimL l
    if t ≠ [] ∧ t.all (fun c => c = '=') then some 1
    else if t ≠ [] ∧ t.all (fun c => c = '-') then some 2
    else none

/-- `is_html_comment_line`.  NOTE: when the trimmed line passes both
delimiter checks but is shorter than 7 characters (`<!-->`, `<!--->`), the
source slices `&trimmed[4..len-3]` with an inverted range and panics; the
truncating `List.take` below makes this model total at those two inputs. -/
def isHtmlCommentLine (l : List Char) : Bool :=
  let t := trimL l
  if ¬ ("<!--".data.isPrefixOf t) then false
  else if ¬ ("-->".data.isSuffixOf t) then false
  else
    let inner := (t.drop 4).take (t.length - 7)
    ¬ (indexOfSub "-->".data inner).isSome

/-- The condition under which the slice `&trimmed[4..trimmed.len()-3]`
taken by `is_html_comment_line` has an inverted range and the source
panics. -/
def commentSlicePanics (l : List Char) : Bool :=
  let t := trimL l
  "<!--".data.isPrefixOf t && "-->".data.isSuffixOf t && t.length < 7

/-- The character loop of `is_horizontal_rule`: count rule characters of a
single kind, allow blanks, reject anything else. -/
def hrGo : Option Char → Nat → List Char → Bool
  | rc, count, [] => decide (count ≥ 3) && rc.isSome
  | rc, count, c :: r =>
    if c = '-' ∨ c = '_' ∨ c = '*' then
      match rc with
      | some x => if x ≠ c then false else hrGo rc (count + 1) r
      | Option.none => hrGo (some c) (count + 1) r
    else if c = ' ' ∨ c = '\t' then hrGo rc count r
    else false

/-- `is_horizontal_rule`. -/
def isHorizontalRule (l : List Char) : Bool :=
  if leadingWs l > 3 then false else hrGo Option.none 0 (trimL l)

/-- `parse_code_fence`: up to three leading spaces then a backtick or tilde
fence; returns (info string, fence token, leading-space count). -/
def parseCodeFence (l : List Char) : Option (List Char × List Char × Nat) :=
  if leadingWs l > 3 then none
  else
    let t := trimStartL l
    match stripPre fence3 t with
    | some rest => some (trimL rest, fence3, leadingWs l)
    | Option.none =>
      match stripPre "~~~".data t with
      | some rest => some (trimL rest, "~~~".data, leadingWs l)
      | Option.none => none

/-- The bullet-marker check of `parse_list_item`: `-`, `+` or `*` followed
by one to four whitespace characters and some content. -/
def bulletCheck (t : List Char) : Bool :=
  match t with
  | m :: rest =>
    if m = '-' ∨ m = '+' ∨ m = '*' then
      (decide (1 ≤ leadingWs rest ∧ leadingWs rest ≤ 4)) && ¬(trimStartL rest = [])
    else false
  | [] => false

/-- The ordered-marker check of `parse_list_item`: digits, a dot, one to
four whitespace characters, content. -/
def orderedCheck (t : List Char) : Bool :=
  match t.findIdx? (fun c => c = '.') with
  | some dotPos =>
    if 0 < dotPos ∧ dotPos < t.length - 1 then
      let before := t.take dotPos
      let after := t.drop (dotPos + 1)
      before.all (fun c => c.isDigit) &&
        (decide (1 ≤ leadingWs after ∧ leadingWs after ≤ 4)) && ¬(trimStartL after = [])
    else false
  | Option.none => false

/-- `parse_list_item`: returns (leading indent, item kind); indent capped
at 12. -/
def parseListItem (l : List Char) : Option (Nat × ListItemType) :=
  if leadingWs l > 12 then none
  else
    let t := trimStartL l
    if bulletCheck t then some (leadingWs l, .unordered)
    else if orderedCheck t then some (leadingWs l, .ordered)
    else none

/-- The marker loop of `parse_blockquote_marker`: each `>` optionally eats
one following space. -/
def bqGo : Nat → List Char → Nat
  | n, [] => n
  | n, c :: r =>
    if c = '>' then
      match r with
      | c2 :: r2 => if c2 = ' ' then bqGo (n + 1) r2 else bqGo (n + 1) (c2 :: r2)
      | [] => n + 1
    else n

/-- `parse_blockquote_marker`. -/
def parseBlockquoteMarker (l : List Char) : Option Nat :=
  if leadingWs l > 3 then none
  else
    let n := bqGo 0 (trimStartL l)
    if n > 0 then some n else none

/-- The stripping loop of `strip_blockquote_markers`. -/
def stripBq : Nat → List Char → List Char
  | 0, l => l
  | k + 1, l =>
    match l with
    | c :: r =>
      if c = '>' then
        match r with
        | c2 :: r2 => if c2 = ' ' then stripBq k r2 else stripBq k (c2 :: r2)
        | [] => []
      else l
    | [] => []

/-- `strip_blockquote_markers`. -/
def stripBlockquoteMarkers (l : List Char) (expected : Nat) : List Char :=
  stripBq expected (trimStartL l)

/-- The escape-aware label scan of `parse_link_definition`: index of the
first unescaped `]`. -/
def labelScan : Bool → Nat → List Char → Option Nat
  | _, _, [] => none
  | inEsc, idx, c :: r =>
    if inEsc then labelScan false (idx + 1) r
    else if c = '\\' then labelScan true (idx + 1) r
    else if c = ']' then some idx
    else labelScan false (idx + 1) r

/-- The optional-title parse of `parse_link_definition`: a double-quoted,
single-quoted or parenthesised title, or none. -/
def titleOf (remaining : List Char) : Option (List Char) :=
  match remaining with
  | '"' :: s => (s.findIdx? (fun c => c = '"')).map (fun e => s.take e)
  | '\'' :: s => (s.findIdx? (fun c => c = '\'')).map (fun e => s.take e)
  | '(' :: s => (s.findIdx? (fun c => c = ')')).map (fun e => s.take e)
  | _ => none

/-- `parse_link_definition`: `[label]: url "title"` with a bare or
angle-bracketed url. -/
def parseLinkDefinition (l : List Char) :
    Option (List Char × List Char × Option (List Char)) :=
  let trimmed0 := trimEndMatches '\n' l
  if leadingWs trimmed0 > 3 then none
  else
    let t := trimStartL trimmed0
    match t with
    | '[' :: rest =>
      match labelScan false 0 rest with
      | Option.none => none
      | some labelEnd =>
        let label := rest.take labelEnd
        if trimL label = [] then none
        else
          match t.drop (labelEnd + 2) with
          | ':' :: afterColon =>
            let urlPart := trimStartL afterColon
            if urlPart = [] then none
            else
              match urlPart with
              | '<' :: stripped =>
                match stripped.findIdx? (fun c => c = '>') with
                | some e =>
                  some (label, stripped.take e, titleOf (trimStartL (stripped.drop (e + 1))))
                | Option.none => none
              | _ =>
                let e :=
                  match urlPart.findIdx? (fun c => isUniWs c) with
                  | some k => k
                  | Option.none => urlPart.length
                some (label, urlPart.take e, titleOf (trimStartL (urlPart.drop e)))
          | _ => none
    | _ => none

/-- One delimiter cell of `is_table_delimiter_row`: optional colons around
at least three dashes. -/
def delimCellOk (cell : List Char) : Bool :=
  match cell with
  | [] => false
  | _ =>
    let sc := cell.head? = some ':'
    let ec := cell.getLast? = some ':'
    let ds :=
      if sc ∧ ec then (cell.drop 1).dropLast
      else if sc then cell.drop 1
      else if ec then cell.dropLast
      else cell
    decide (ds.length ≥ 3) && ds.all (fun c => c = '-')

/-- `is_table_delimiter_row`. -/
def isTableDelimiterRow (l : List Char) : Bool :=
  if ¬ l.any (fun c => c = '|') then false
  else
    let cells := ((splitOnChar '|' l).map trimL).filter (fun s => s ≠ [])
    if cells = [] then false else cells.all delimCellOk

/-- The cell-splitting loop of `parse_table_row` (backslash escapes the
next character; cells are trimmed as they are pushed). -/
def ptrGo (esc : Bool) (cur : List Char) : List Char → List (List Char)
  | [] => if trimL cur ≠ [] then [trimL cur] else []
  | c :: r =>
    if esc then ptrGo false (cur ++ [c]) r
    else if c = '\\' then ptrGo true cur r
    else if c = '|' then trimL cur :: ptrGo false [] r
    else ptrGo false (cur ++ [c]) r

/-- `parse_table_row`: split on unescaped pipes, trim cells, drop an empty
leading and an empty trailing cell. -/
def parseTableRow (l : List Char) : List (List Char) :=
  let cells := ptrGo false [] l
  let cells :=
    match cells with
    | [] => []
    | h :: t => if h = [] then t else h :: t
  match cells.getLast? with
  | some last => if last = [] then cells.dropLast else cells
  | Option.none => cells

/-- `parse_alignments`: colon placement in each delimiter cell. -/
def parseAlignments (l : List Char) : List Alignment :=
  (parseTableRow l).map (fun cell =>
    let t := trimL cell
    let sc := t.head? = some ':'
    let ec := t.getLast? = some ':'
    if sc ∧ ec then Alignment.center
    else if ¬ sc ∧ ec then Alignment.right
    else Alignment.left)

/-- `align_cell`: pad to the column width per alignment, measuring the
ANSI-stripped character count. -/
def alignCell (content : List Char) (width : Nat) (a : Alignment) : List Char :=
  let visible := (stripAnsi content).length
  if visible ≥ width then content
  else
    let padding := width - visible
    match a with
    | .left => content ++ List.replicate padding ' '
    | .right => List.replicate padding ' ' ++ content
    | .center =>
      List.replicate (padding / 2) ' ' ++ content ++
        List.replicate (padding - padding / 2) ' '

/-- One border row of `format_table` (`┌┬┐`, `├┼┤` or `└┴┘`). -/
def borderRow (widths : List Nat) (l m r : Char) : List Char :=
  l :: joinWith [m] (widths.map (fun w => List.replicate (w + 2) '─')) ++ [r, '\n']

/-- The header-cell loop of `format_table`: each header cell is
inline-formatted (threading the resolver state) and aligned. -/
def renderHeaderCells (widths : List Nat) (aligns : List Alignment) :
    Nat → Refs → List (List Char) → List Char × Refs
  | _, r, [] => ([], r)
  | i, r, cell :: rest =>
    let fr := formatInlineTop r cell
    let aligned := alignCell fr.1 (widths.getD i 0) (aligns.getD i Alignment.left)
    let rest2 := renderHeaderCells widths aligns (i + 1) fr.2 rest
    (' ' :: aligned ++ [' ', '│'] ++ rest2.1, rest2.2)

/-- The data-cell loop of `format_table`: every column up to the column
count is rendered, missing cells as empty text. -/
def renderDataCells (widths : List Nat) (aligns : List Alignment)
    (row : List (List Char)) : Nat → Nat → Refs → List Char × Refs
  | _, 0, r => ([], r)
  | i, k + 1, r =>
    let fr := formatInlineTop r (row.getD i [])
    let aligned := alignCell fr.1 (widths.getD i 0) (aligns.getD i Alignment.left)
    let rest2 := renderDataCells widths aligns row (i + 1) k fr.2
    (' ' :: aligned ++ [' ', '│'] ++ rest2.1, rest2.2)

/-- The data-row loop of `format_table`. -/
def renderRows (widths : List Nat) (aligns : List Alignment) :
    List (List (List Char)) → Refs → List Char × Refs
  | [], r => ([], r)
  | row :: rest, r =>
    let cr := renderDataCells widths aligns row 0 widths.length r
    let rest2 := renderRows widths aligns rest cr.2
    ('│' :: cr.1 ++ ['\n'] ++ rest2.1, rest2.2)

/-- `format_table`: column widths are the maximum ANSI-stripped cell width
(minimum 3); box-drawing borders surround the aligned header and rows. -/
def formatTable (r : Refs) (header : List (List Char)) (aligns : List Alignment)
    (rows : List (List (List Char))) : List Char × Refs :=
  let numCols := Nat.max header.length ((rows.map List.length).foldr Nat.max 0)
  let widths := (List.range numCols).map (fun i =>
    let h := match header.get? i with
      | some c => (stripAnsi c).length
      | Option.none => 0
    let m := (rows.map (fun row =>
      match row.get? i with
      | some c => (stripAnsi c).length
      | Option.none => 0)).foldr Nat.max 0
    Nat.max (Nat.max h m) 3)
  let hr := renderHeaderCells widths aligns 0 r header
  let rr := renderRows widths aligns rows hr.2
  (borderRow widths '┌' '┬' '┐' ++ '│' :: hr.1 ++ ['\n'] ++
     borderRow widths '├' '┼' '┤' ++ rr.1 ++ borderRow widths '└' '┴' '┘' ++ ['\n'], rr.2)

/-- `format_heading`: bold blue, resets inside the inline-formatted text
re-open the heading style, two trailing newlines. -/
def formatHeading (r : Refs) (level : Nat) (text : List Char) : List Char × Refs :=
  let fr := formatInlineTop r text
  let hs := sgr "1;34"
  let ftext2 := replaceAll (sgr "0") (sgr "0" ++ hs) fr.1
  (hs ++ List.replicate level '#' ++ ' ' :: ftext2 ++ sgr "0" ++ "\n\n".data, fr.2)

/-- Modelled from the spec: `format_horizontal_rule` queries the terminal
width via the `term_size` collaborator; this embedding fixes the query to
its documented fallback of 80 columns. -/
def hrWidth : Nat := 80

/-- `format_horizontal_rule`: a dim full-width line of box dashes. -/
def formatHorizontalRule : List Char :=
  sgr "2" ++ List.replicate hrWidth '─' ++ sgr "0" ++ "\n\n".data

/-- The hard-line-break test of `format_paragraph` (two or more trailing
spaces, or a trailing backslash). -/
def hardBreak (line : List Char) : Bool :=
  "  ".data.isSuffixOf line || "   ".data.isSuffixOf line ||
  "    ".data.isSuffixOf line || line.getLast? = some '\\'

/-- Per-line cleanup of `format_paragraph`: drop a trailing backslash, else
trim trailing whitespace. -/
def paraPiece (line : List Char) : List Char :=
  if line.getLast? = some '\\' then line.dropLast else trimEndL line

/-- The joining loop of `format_paragraph`: newline after a hard break,
space otherwise. -/
def paraJoin : List (List Char) → List Char
  | [] => []
  | [line] => paraPiece line
  | line :: rest =>
    paraPiece line ++ (if hardBreak line then ['\n'] else [' ']) ++ paraJoin rest

/-- `format_paragraph`: join lines respecting hard breaks, inline-format,
wrap each hard-break segment with empty indents, two trailing newlines. -/
def formatParagraph (wid : Nat) (r : Refs) (lines : List (List Char)) :
    List Char × Refs :=
  let fr := formatInlineTop r (paraJoin lines)
  let segs := (splitOnChar '\n' fr.1).map (fun s => wrapText wid s [] [])
  (joinWith ['\n'] segs ++ "\n\n".data, fr.2)

/-- Modelled from the spec: the syntect `Highlighter` collaborator returns
one ANSI-escaped line per input line, falling back to plain text for an
unknown language or theme; this embedding renders that fallback as the
line's own characters. -/
def highlightLine (line : List Char) : List Char := line

/-- `format_code_block`: four-space indent per highlighted line, then a
reset and a blank line. -/
def formatCodeBlock (r : Refs) (lines : List (List Char)) (_info : List Char) :
    List Char × Refs :=
  ((lines.map (fun line => "    ".data ++ highlightLine line ++ ['\n'])).flatten ++
     sgr "0" ++ ['\n'], r)

/-- Content extraction of one list item in `format_list`: strip the bullet
marker or everything up to the first `. `. -/
def listContent (t : List Char) : List Char :=
  match stripPre "- ".data t with
  | some rest => rest
  | Option.none =>
    match stripPre "+ ".data t with
    | some rest => rest
    | Option.none =>
      match stripPre "* ".data t with
      | some rest => rest
      | Option.none =>
        match indexOfSub ". ".data t with
        | some dotPos => t.drop (dotPos + 2)
        | Option.none => t

/-- `counters.entry(level).or_insert(0); *counter += 1` of `format_list`. -/
def bumpCounter (cs : List (Nat × Nat)) (k : Nat) : Nat × List (Nat × Nat) :=
  let v := (((cs.find? (fun e => e.1 == k)).map (·.2)).getD 0) + 1
  (v,
   if (cs.find? (fun e => e.1 == k)).isSome then
     cs.map (fun e => if e.1 = k then (k, v) else e)
   else cs ++ [(k, v)])

/-- The item loop of `format_list`: bullets render as `indent ++ "  • "`,
ordered items number per nesting level, both wrap with aligned
continuation indents. -/
def formatListGo (wid : Nat) :
    List (Nat × ListItemType × List Char) → List (Nat × Nat) → Refs → List Char × Refs
  | [], _, r => ([], r)
  | (indentLevel, ty, item) :: rest, counters, r =>
    let content := listContent (trimStartL item)
    let fr := formatInlineTop r content
    let nesting := indentLevel / 4
    let indent := List.replicate (nesting * 2) ' '
    match ty with
    | .unordered =>
      let wrapped := wrapText wid fr.1 (indent ++ "  • ".data) (indent ++ "    ".data)
      let rest2 := formatListGo wid rest counters fr.2
      (wrapped ++ ['\n'] ++ rest2.1, rest2.2)
    | .ordered =>
      let bc := bumpCounter counters nesting
      let firstInd := indent ++ "  ".data ++ natStr bc.1 ++ ". ".data
      let contInd := indent ++ "  ".data ++ List.replicate (natStr bc.1).length ' ' ++ "  ".data
      let wrapped := wrapText wid fr.1 firstInd contInd
      let rest2 := formatListGo wid rest bc.2 fr.2
      (wrapped ++ ['\n'] ++ rest2.1, rest2.2)

/-- `format_list`. -/
def formatList (wid : Nat) (r : Refs) (items : List (Nat × ListItemType × List Char)) :
    List Char × Refs :=
  let fr := formatListGo wid items [] r
  (fr.1 ++ ['\n'], fr.2)

/-- The line loop of `format_blockquote`: a `" │ "` prefix per nesting
level on every wrapped line. -/
def formatBlockquoteGo (wid : Nat) : List (Nat × List Char) → Refs → List Char × Refs
  | [], r => ([], r)
  | (nest, content) :: rest, r =>
    let pfx := (List.replicate nest " │ ".data).flatten
    let fr := formatInlineTop r content
    let rest2 := formatBlockquoteGo wid rest fr.2
    (wrapText wid fr.1 pfx pfx ++ ['\n'] ++ rest2.1, rest2.2)

/-- `format_blockquote`. -/
def formatBlockquote (wid : Nat) (r : Refs) (lines : List (Nat × List Char)) :
    List Char × Refs :=
  let fr := formatBlockquoteGo wid lines r
  (fr.1 ++ ['\n'], fr.2)

/-- `format_bibliography`: nothing when no citation is pending; otherwise a
References header and one line per ledger entry, hyperlinked when a
definition has arrived by now and `(unresolved)` otherwise. -/
def formatBibliography (r : Refs) : Option (List Char) :=
  if r.citations = [] then none
  else
    let entries := r.citations.map (fun e =>
      let num := e.1
      let label := e.2.1
      match lookupDef r.linkDefs (normalizeLinkLabel label) with
      | some (url, title) =>
        '[' :: natStr num ++ "] ".data ++ label ++ ": ".data ++
          osc8Open url ++ sgr "34;4" ++ url ++ sgr "0" ++ osc8Close ++
          (match title with
           | some t => ' ' :: '"' :: t ++ ['"']
           | Option.none => []) ++ ['\n']
      | Option.none =>
        '[' :: natStr num ++ "] ".data ++ label ++ ": ".data ++
          sgr "31" ++ "(unresolved)".data ++ sgr "0" ++ ['\n'])
    some ('\n' :: sgr "1;34" ++ "─── References ───".data ++ sgr "0" ++
      "\n\n".data ++ entries.flatten ++ ['\n'])

/-- `emit_current_block`: take the builder (leaving `None`), reset the
state to `Ready`, render per block kind.  With the `None` image protocol
the prefetch fan-out is a no-op and is omitted. -/
def emitCurrentBlock (p : Parser) : Parser × Option (List Char) :=
  let block := p.current
  let q : Parser := { p with current := .none, state := .ready }
  match block with
  | .none => (q, none)
  | .paragraph lines =>
    let fr := formatParagraph q.width q.refs lines
    ({ q with refs := fr.2 }, some fr.1)
  | .codeBlock lines info =>
    let fr := formatCodeBlock q.refs lines info
    ({ q with refs := fr.2 }, some fr.1)
  | .list items =>
    let fr := formatList q.width q.refs items
    ({ q with refs := fr.2 }, some fr.1)
  | .table header aligns rows =>
    let fr := formatTable q.refs header aligns rows
    ({ q with refs := fr.2 }, some fr.1)
  | .blockquote lines _ =>
    let fr := formatBlockquote q.width q.refs lines
    ({ q with refs := fr.2 }, some fr.1)

/-- Concatenation of two optional emissions (the repeated
`match (emission, new_emission)` blocks of the source). -/
def combineOpt : Option (List Char) → Option (List Char) → Option (List Char)
  | some a, some b => some (a ++ b)
  | some a, Option.none => some a
  | Option.none, some b => some b
  | Option.none, Option.none => none

/-- `handle_ready_state`: try blank, whole-line HTML comment, ATX heading,
code fence, blockquote, thematic break, list marker, link reference
definition, else open a paragraph. -/
def handleReadyState (p : Parser) (line : List Char) : Parser × Option (List Char) :=
  let trimmed := trimEndMatches '\n' line
  if trimmed = [] then (p, none)
  else if isHtmlCommentLine trimmed then (p, none)
  else
    match parseAtxHeading trimmed with
    | some level =>
      let fr := formatHeading p.refs level (trimStartL (trimmed.drop level))
      ({ p with refs := fr.2 }, some fr.1)
    | Option.none =>
    match parseCodeFence trimmed with
    | some (info, fence, indentOffset) =>
      ({ p with state := .inCodeBlock info fence indentOffset,
                current := .codeBlock [] info }, none)
    | Option.none =>
    match parseBlockquoteMarker trimmed with
    | some nesting =>
      ({ p with state := .inBlockquote nesting,
                current := .blockquote [(nesting, stripBlockquoteMarkers trimmed nesting)] nesting },
       none)
    | Option.none =>
    if isHorizontalRule trimmed then (p, some formatHorizontalRule)
    else
      match parseListItem trimmed with
      | some (indent, ty) =>
        ({ p with state := .inList, current := .list [(indent, ty, trimmed)] }, none)
      | Option.none =>
      match parseLinkDefinition trimmed with
      | some (label, url, title) =>
        ({ p with refs := { p.refs with
            linkDefs := insertIfAbsent p.refs.linkDefs (normalizeLinkLabel label) (url, title) } },
         none)
      | Option.none =>
        ({ p with state := .inParagraph, current := .paragraph [trimmed] }, none)

/-- `handle_in_paragraph`: blank emits, a setext underline converts the
accumulated lines into a heading, a table delimiter after exactly one line
promotes to a table, anything else is appended. -/
def handleInParagraph (p : Parser) (line : List Char) : Parser × Option (List Char) :=
  let trimmed := trimEndMatches '\n' line
  if trimmed = [] then emitCurrentBlock p
  else
    let setext :=
      match parseSetextUnderline trimmed, p.current with
      | some level, .paragraph lines => some (level, lines)
      | _, _ => none
    match setext with
    | some (level, lines) =>
      let q : Parser := { p with state := .ready, current := .none }
      let fr := formatHeading q.refs level (joinWith [' '] lines)
      ({ q with refs := fr.2 }, some fr.1)
    | Option.none =>
      match p.current with
      | .paragraph lines =>
        if lines.length = 1 ∧ isTableDelimiterRow trimmed then
          ({ p with current := .table (parseTableRow (lines.getD 0 []))
                      (parseAlignments trimmed) [],
                    state := .inTable }, none)
        else ({ p with current := .paragraph (lines ++ [trimmed]) }, none)
      | _ => (p, none)

/-- `handle_in_code_block`: a line whose left-trimmed text equals the fence
closes and emits; other lines are appended after stripping the recorded
indent offset. -/
def handleInCodeBlock (p : Parser) (line : List Char) : Parser × Option (List Char) :=
  let trimmed := trimEndMatches '\n' line
  match p.state with
  | .inCodeBlock _ fence indentOffset =>
    let lineTrimmed := trimStartL trimmed
    if fence.isPrefixOf lineTrimmed ∧ trimL lineTrimmed = trimL fence then
      emitCurrentBlock p
    else
      match p.current with
      | .codeBlock lines info2 =>
        let lineToAdd :=
          if indentOffset > 0 ∧ trimmed.length ≥ indentOffset then trimmed.drop indentOffset
          else trimmed
        ({ p with current := .codeBlock (lines ++ [lineToAdd]) info2 }, none)
      | _ => (p, none)
  | _ => (p, none)

/-- `handle_in_list`: blank goes to the after-blank state, a thematic break
emits list then rule, a marker appends an item, four-space indents either
open a nested code fence (emitting the list) or are dropped as
continuations, anything else emits and re-dispatches through the Ready
rules. -/
def handleInList (p : Parser) (line : List Char) : Parser × Option (List Char) :=
  let trimmed := trimEndMatches '\n' line
  if trimmed = [] then ({ p with state := .inListAfterBlank }, none)
  else if isHorizontalRule trimmed then
    let er := emitCurrentBlock p
    (er.1, some (er.2.getD [] ++ formatHorizontalRule))
  else
    match parseListItem trimmed with
    | some (indent, ty) =>
      match p.current with
      | .list items => ({ p with current := .list (items ++ [(indent, ty, trimmed)]) }, none)
      | _ => (p, none)
    | Option.none =>
      if leadingWs trimmed ≥ 4 then
        match parseCodeFence (trimmed.drop 4) with
        | some (info, fence, fenceIndent) =>
          let er := emitCurrentBlock p
          ({ er.1 with state := .inCodeBlock info fence (4 + fenceIndent),
                       current := .codeBlock [] info }, er.2)
        | Option.none => (p, none)
      else
        let er := emitCurrentBlock p
        let hr := handleReadyState er.1 line
        (hr.1, combineOpt er.2 hr.2)

/-- `handle_in_list_after_blank`: a marker of the same kind resumes the
list, a different kind emits and re-dispatches, a four-space indent resumes
as continuation, anything else emits (re-dispatching non-blank lines). -/
def handleInListAfterBlank (p : Parser) (line : List Char) : Parser × Option (List Char) :=
  let trimmed := trimEndMatches '\n' line
  match parseListItem trimmed with
  | some (_, newType) =>
    let sameType : Bool :=
      match p.current with
      | .list items =>
        match items.head? with
        | some (_, curType, _) => curType = newType
        | Option.none => false
      | _ => false
    if sameType then handleInList { p with state := .inList } line
    else
      let er := emitCurrentBlock p
      let hr := handleReadyState er.1 line
      (hr.1, combineOpt er.2 hr.2)
  | Option.none =>
    if leadingWs trimmed ≥ 4 ∧ trimmed ≠ [] then
      handleInList { p with state := .inList } line
    else
      let er := emitCurrentBlock p
      if trimmed ≠ [] then
        let hr := handleReadyState er.1 line
        (hr.1, combineOpt er.2 hr.2)
      else er

/-- `handle_in_table`: blank emits; a line without a pipe emits and
re-dispatches; otherwise the line is split into cells and appended. -/
def handleInTable (p : Parser) (line : List Char) : Parser × Option (List Char) :=
  let trimmed := trimEndMatches '\n' line
  if trimmed = [] then emitCurrentBlock p
  else if ¬ trimmed.any (fun c => c = '|') then
    let er := emitCurrentBlock p
    let hr := handleReadyState er.1 line
    (hr.1, combineOpt er.2 hr.2)
  else
    match p.current with
    | .table h a rows => ({ p with current := .table h a (rows ++ [parseTableRow trimmed]) }, none)
    | _ => (p, none)

/-- `handle_in_blockquote`: blank emits; a marked line is re-stripped at
its own nesting (updating both builder and state); an unmarked line is a
lazy continuation at the current nesting. -/
def handleInBlockquote (p : Parser) (line : List Char) : Parser × Option (List Char) :=
  let trimmed := trimEndMatches '\n' line
  if trimmed = [] then emitCurrentBlock p
  else
    match parseBlockquoteMarker trimmed with
    | some nesting =>
      match p.current with
      | .blockquote lines _ =>
        ({ p with state := .inBlockquote nesting,
                  current := .blockquote (lines ++ [(nesting, stripBlockquoteMarkers trimmed nesting)]) nesting },
         none)
      | _ => (p, none)
    | Option.none =>
      match p.current with
      | .blockquote lines curN =>
        ({ p with current := .blockquote (lines ++ [(curN, trimmed)]) curN }, none)
      | _ => (p, none)

/-- `process_line`: dispatch on the parser state. -/
def processLine (p : Parser) (line : List Char) : Parser × Option (List Char) :=
  match p.state with
  | .ready => handleReadyState p line
  | .inParagraph => handleInParagraph p line
  | .inCodeBlock _ _ _ => handleInCodeBlock p line
  | .inList => handleInList p line
  | .inListAfterBlank => handleInListAfterBlank p line
  | .inTable => handleInTable p line
  | .inBlockquote _ => handleInBlockquote p line

/-- The line-extraction loop of `feed`: peel complete lines (including
their newline) off the front of the buffer, keeping the unterminated
tail. -/
def linesGo (cur : List Char) : List Char → List (List Char) × List Char
  | [] => ([], cur)
  | c :: r =>
    if c = '\n' then
      let lr := linesGo [] r
      ((cur ++ [c]) :: lr.1, lr.2)
    else linesGo (cur ++ [c]) r

/-- Split a buffer into its complete lines and the trailing partial line. -/
def splitFullLines (l : List Char) : List (List Char) × List Char := linesGo [] l

/-- Process a list of complete lines, concatenating the emissions. -/
def processLines (p : Parser) : List (List Char) → Parser × List Char
  | [] => (p, [])
  | l :: ls =>
    let pr := processLine p l
    let rest := processLines pr.1 ls
    (rest.1, pr.2.getD [] ++ rest.2)

/-- `StreamingParser::feed`: append the chunk to the buffer, process every
complete line, keep the remainder buffered. -/
def feed (p : Parser) (chunk : List Char) : Parser × List Char :=
  let sp := splitFullLines (p.buffer ++ chunk)
  let pr := processLines { p with buffer := [] } sp.1
  ({ pr.1 with buffer := sp.2 }, pr.2)

/-- `StreamingParser::flush`: process the partial line if any, emit the
open block, then the bibliography. -/
def flush (p : Parser) : Parser × List Char :=
  let st :=
    if p.buffer ≠ [] then
      let pr := processLine { p with buffer := [] } p.buffer
      (pr.1, pr.2.getD [])
    else (p, ([] : List Char))
  let er := emitCurrentBlock st.1
  (er.1, st.2 ++ er.2.getD [] ++ (formatBibliography er.1.refs).getD [])

/-- Feed a sequence of chunks, concatenating the outputs. -/
def runChunks (p : Parser) : List (List Char) → Parser × List Char
  | [] => (p, [])
  | c :: cs =>
    let fr := feed p c
    let rest := runChunks fr.1 cs
    (rest.1, fr.2 ++ rest.2)

-- End-to-end sanity checks of the embedded pipeline.
example : (flush (initParser 80)).2 = [] := by decide
example :
    (feed (initParser 80) "# Title\n".data).2 =
      sgr "1;34" ++ '#' :: ' ' :: "Title".data ++ sgr "0" ++ "\n\n".data := by decide
example :
    (let s1 := feed (initParser 80) "- a\n- b\n\n".data
     s1.2 ++ (flush s1.1).2) = "  • a\n  • b\n\n".data := by decide
example :
    (let s1 := feed (initParser 80) "Visit [x][lbl].\n\n".data
     let s2 := feed s1.1 "[lbl]: https://e.com\n\n".data
     (s2.1.refs.citations, s2.1.refs.nextCitation,
      lookupDef s2.1.refs.linkDefs "lbl".data)) =
      ([(1, "lbl".data, "x".data)], 2, some ("https://e.com".data, none)) := by decide

/-! ## Citation-ledger invariants -/

/-- The citation ledger is well-numbered: the numbers are exactly
`1, 2, …, n` in order, and the counter holds `n + 1`. -/
def citesGood (r : Refs) : Prop :=
  r.citations.map (fun e => e.1) = List.range' 1 r.citations.length ∧
  r.nextCitation = r.citations.length + 1

/-- One resolver state extends another: the ledger grew only by appending,
well-numbering is preserved, and no binding of the link-definition table is
overwritten or dropped. -/
def RefsExt (r r' : Refs) : Prop :=
  (∃ new, r'.citations = r.citations ++ new) ∧ (citesGood r → citesGood r') ∧
  (∀ k v, lookupDef r.linkDefs k = some v → lookupDef r'.linkDefs k = some v)

def RefsExt.refl (r : Refs) : RefsExt r r :=
  ⟨⟨[], (List.append_nil _).symm⟩, id, fun _ _ h => h⟩

def RefsExt.trans {a b c : Refs} (h1 : RefsExt a b) (h2 : RefsExt b c) :
    RefsExt a c := by
  obtain ⟨⟨n1, e1⟩, g1, d1⟩ := h1
  obtain ⟨⟨n2, e2⟩, g2, d2⟩ := h2
  exact ⟨⟨n1 ++ n2, by rw [e2, e1, List.append_assoc]⟩, fun g => g2 (g1 g),
    fun k v h => d2 k v (d1 k v h)⟩

theorem refsExt_alloc (r : Refs) (label text : List Char) :
    RefsExt r (allocCitation r label text).2 := by
  refine ⟨⟨[(r.nextCitation, label, text)], rfl⟩, fun g => ?_, fun _ _ h => h⟩
  obtain ⟨gmap, gnum⟩ := g
  have hlen : (allocCitation r label text).2.citations.length = r.citations.length + 1 := by
    simp [allocCitation]
  constructor
  · rw [hlen]
    show (r.citations ++ [(r.nextCitation, label, text)]).map (fun e => e.1) = _
    rw [List.map_append, gmap, gnum, List.range'_1_concat 1 r.citations.length]
    simp [Nat.add_comm]
  · show r.nextCitation + 1 = _
    rw [hlen, gnum]

/-- `entry(k).or_insert(v)` never disturbs a binding that is already
present (first writer wins at the table level). -/
theorem lookupDef_insertIfAbsent (defs : List (List Char × (List Char × Option (List Char))))
    (key : List Char) (val : List Char × Option (List Char)) (k : List Char)
    (v : List Char × Option (List Char)) (h : lookupDef defs k = some v) :
    lookupDef (insertIfAbsent defs key val) k = some v := by
  unfold insertIfAbsent
  split
  · exact h
  · unfold lookupDef at h ⊢
    rw [List.find?_append]
    cases hf : defs.find? (fun e => e.1 == k) with
    | none => rw [hf] at h; exact absurd h (by simp)
    | some e => rw [hf] at h; simpa using h

theorem refsExt_setDefs (r : Refs) (key : List Char) (val : List Char × Option (List Char)) :
    RefsExt r { r with linkDefs := insertIfAbsent r.linkDefs key val } :=
  ⟨⟨[], (List.append_nil _).symm⟩, id, fun k v h => lookupDef_insertIfAbsent _ key val k v h⟩

theorem renderReferenceLink_refsExt (fmt : Refs → List Char → List Char × Refs)
    (hf : ∀ r s, RefsExt r (fmt r s).2) (r : Refs) (rl : ReferenceLinkData) :
    RefsExt r (renderReferenceLink fmt r rl).2 := by
  unfold renderReferenceLink
  split
  · exact hf r rl.text
  · exact (refsExt_alloc r rl.label rl.text).trans (hf _ rl.text)

theorem parseHtmlTag_refsExt (fmt : Refs → List Char → List Char × Refs)
    (hf : ∀ r s, RefsExt r (fmt r s).2) (r : Refs) (chars : List Char) (start : Nat) :
    ∀ res, parseHtmlTag fmt r chars start = some res → RefsExt r res.2 := by
  have hpair : ∀ tagName tagContent inner endPos,
      RefsExt r (renderPairedTag fmt r tagName tagContent inner endPos).2 := by
    intro tagName tagContent inner endPos
    unfold renderPairedTag
    repeat' split
    all_goals first
      | exact RefsExt.refl r
      | exact hf r inner
  intro res h
  unfold parseHtmlTag at h
  split at h
  · exact Option.noConfusion h
  split at h
  · split at h
    · cases h; exact RefsExt.refl r
    · exact Option.noConfusion h
  · split at h
    · exact Option.noConfusion h
    · rename_i tagEnd heq2
      by_cases hsc : (trimL (seg chars (start + 1) tagEnd)).getLast? = some '/'
      · rw [if_pos hsc] at h
        cases h; exact RefsExt.refl r
      · rw [if_neg hsc] at h
        dsimp only at h
        split at h
        · cases h; exact RefsExt.refl r
        · split at h
          · exact Option.noConfusion h
          · split at h
            · exact Option.noConfusion h
            · cases h; exact hpair ..

theorem fiGo_refsExt (f : Nat) :
    ∀ (chars : List Char) (r : Refs) (i : Nat) (acc : List Char),
      RefsExt r (fiGo f chars r i acc).2 := by
  induction f with
  | zero => intro chars r i acc; exact RefsExt.refl r
  | succ f ih =>
    intro chars r i acc
    have hfmt : ∀ (r0 : Refs) (s0 : List Char), RefsExt r0 (fiGo f s0 r0 0 []).2 :=
      fun r0 s0 => ih s0 r0 0 []
    unfold fiGo
    repeat' split
    all_goals first
      | exact RefsExt.refl _
      | exact ih ..
      | exact (ih ..).trans (ih ..)
      | exact (renderReferenceLink_refsExt _ hfmt _ _).trans (ih ..)
      | (rename_i heq
         split at heq
         · exact ((parseHtmlTag_refsExt _ hfmt _ _ _ _ heq).trans (ih ..))
         · exact Option.noConfusion heq)

theorem formatInlineTop_refsExt (r : Refs) (s : List Char) :
    RefsExt r (formatInlineTop r s).2 :=
  fiGo_refsExt (fiFuel s) s r 0 []

theorem formatHeading_refsExt (r : Refs) (level : Nat) (text : List Char) :
    RefsExt r (formatHeading r level text).2 :=
  formatInlineTop_refsExt r text

theorem formatParagraph_refsExt (wid : Nat) (r : Refs) (lines : List (List Char)) :
    RefsExt r (formatParagraph wid r lines).2 :=
  formatInlineTop_refsExt r (paraJoin lines)

theorem formatListGo_refsExt (wid : Nat) :
    ∀ (items : List (Nat × ListItemType × List Char)) (counters : List (Nat × Nat)) (r : Refs),
      RefsExt r (formatListGo wid items counters r).2 := by
  intro items
  induction items with
  | nil => intro counters r; exact RefsExt.refl r
  | cons it rest ih =>
    intro counters r
    obtain ⟨indentLevel, ty, item⟩ := it
    cases ty
    · exact (formatInlineTop_refsExt ..).trans (ih ..)
    · exact (formatInlineTop_refsExt ..).trans (ih ..)

theorem formatList_refsExt (wid : Nat) (r : Refs) (items : List (Nat × ListItemType × List Char)) :
    RefsExt r (formatList wid r items).2 :=
  formatListGo_refsExt wid items [] r

theorem renderHeaderCells_refsExt (widths : List Nat) (aligns : List Alignment) :
    ∀ (cells : List (List Char)) (i : Nat) (r : Refs),
      RefsExt r (renderHeaderCells widths aligns i r cells).2 := by
  intro cells
  induction cells with
  | nil => intro i r; exact RefsExt.refl r
  | cons cell rest ih => intro i r; exact (formatInlineTop_refsExt ..).trans (ih ..)

theorem renderDataCells_refsExt (widths : List Nat) (aligns : List Alignment)
    (row : List (List Char)) :
    ∀ (k i : Nat) (r : Refs), RefsExt r (renderDataCells widths aligns row i k r).2 := by
  intro k
  induction k with
  | zero => intro i r; exact RefsExt.refl r
  | succ k ih => intro i r; exact (formatInlineTop_refsExt ..).trans (ih ..)

theorem renderRows_refsExt (widths : List Nat) (aligns : List Alignment) :
    ∀ (rows : List (List (List Char))) (r : Refs),
      RefsExt r (renderRows widths aligns rows r).2 := by
  intro rows
  induction rows with
  | nil => intro r; exact RefsExt.refl r
  | cons row rest ih => intro r; exact (renderDataCells_refsExt ..).trans (ih ..)

theorem formatTable_refsExt (r : Refs) (header : List (List Char))
    (aligns : List Alignment) (rows : List (List (List Char))) :
    RefsExt r (formatTable r header aligns rows).2 :=
  (renderHeaderCells_refsExt ..).trans (renderRows_refsExt ..)

theorem formatBlockquoteGo_refsExt (wid : Nat) :
    ∀ (lines : List (Nat × List Char)) (r : Refs),
      RefsExt r (formatBlockquoteGo wid lines r).2 := by
  intro lines
  induction lines with
  | nil => intro r; exact RefsExt.refl r
  | cons l rest ih =>
    intro r
    obtain ⟨nest, content⟩ := l
    exact (formatInlineTop_refsExt ..).trans (ih ..)

theorem formatBlockquote_refsExt (wid : Nat) (r : Refs) (lines : List (Nat × List Char)) :
    RefsExt r (formatBlockquote wid r lines).2 :=
  formatBlockquoteGo_refsExt wid lines r

/-- The projections a claim proof needs from one parser step: the chunk
buffer is untouched, the configured width is untouched, and the resolver
state only extends. -/
def StepOk (p q : Parser) : Prop :=
  q.buffer = p.buffer ∧ q.width = p.width ∧ RefsExt p.refs q.refs

def StepOk.refl (p : Parser) : StepOk p p := ⟨rfl, rfl, RefsExt.refl p.refs⟩

def StepOk.trans {a b c : Parser} (h1 : StepOk a b) (h2 : StepOk b c) : StepOk a c :=
  ⟨h2.1.trans h1.1, h2.2.1.trans h1.2.1, h1.2.2.trans h2.2.2⟩

theorem emitCurrentBlock_stepOk (p : Parser) :
    StepOk p (emitCurrentBlock p).1 ∧ (emitCurrentBlock p).1.state = ParserState.ready ∧
      (emitCurrentBlock p).1.current = BlockBuilder.none := by
  obtain ⟨buf, st, cur, refs, w⟩ := p
  cases cur <;> simp only [emitCurrentBlock] <;>
    refine ⟨⟨rfl, rfl, ?_⟩, trivial, trivial⟩ <;> dsimp only <;>
    first
      | exact RefsExt.refl _
      | exact formatParagraph_refsExt ..
      | exact formatList_refsExt ..
      | exact formatTable_refsExt ..
      | exact formatBlockquote_refsExt ..

theorem handleReadyState_stepOk (p : Parser) (l : List Char) :
    StepOk p (handleReadyState p l).1 := by
  unfold handleReadyState
  dsimp only
  repeat' split
  all_goals first
    | exact StepOk.refl p
    | (refine ⟨rfl, rfl, ?_⟩
       try dsimp only
       first
         | exact RefsExt.refl _
         | exact formatHeading_refsExt ..
         | exact refsExt_setDefs ..)

theorem handleInParagraph_stepOk (p : Parser) (l : List Char) :
    StepOk p (handleInParagraph p l).1 := by
  unfold handleInParagraph
  dsimp only
  repeat' split
  all_goals first
    | exact StepOk.refl p
    | exact (emitCurrentBlock_stepOk p).1
    | exact ((emitCurrentBlock_stepOk p).1).trans (handleReadyState_stepOk ..)
    | (refine ⟨rfl, rfl, ?_⟩
       try dsimp only
       first
         | exact RefsExt.refl _
         | exact formatHeading_refsExt ..
         | exact refsExt_setDefs ..)

theorem handleInCodeBlock_stepOk (p : Parser) (l : List Char) :
    StepOk p (handleInCodeBlock p l).1 := by
  unfold handleInCodeBlock
  dsimp only
  repeat' split
  all_goals first
    | exact StepOk.refl p
    | exact (emitCurrentBlock_stepOk p).1
    | exact ((emitCurrentBlock_stepOk p).1).trans (handleReadyState_stepOk ..)
    | (refine ⟨rfl, rfl, ?_⟩
       try dsimp only
       first
         | exact RefsExt.refl _
         | exact formatHeading_refsExt ..
         | exact refsExt_setDefs ..)

theorem handleInList_stepOk (p : Parser) (l : List Char) :
    StepOk p (handleInList p l).1 := by
  unfold handleInList
  dsimp only
  repeat' split
  all_goals first
    | exact StepOk.refl p
    | exact (emitCurrentBlock_stepOk p).1
    | exact ((emitCurrentBlock_stepOk p).1).trans (handleReadyState_stepOk ..)
    | (refine ⟨rfl, rfl, ?_⟩
       try dsimp only
       first
         | exact RefsExt.refl _
         | exact formatHeading_refsExt ..
         | exact refsExt_setDefs ..)

theorem handleInListAfterBlank_stepOk (p : Parser) (l : List Char) :
    StepOk p (handleInListAfterBlank p l).1 := by
  unfold handleInListAfterBlank
  dsimp only
  repeat' split
  all_goals first
    | exact StepOk.refl p
    | exact (emitCurrentBlock_stepOk p).1
    | exact ((emitCurrentBlock_stepOk p).1).trans (handleReadyState_stepOk ..)
    | exact handleInList_stepOk ..
    | (refine ⟨rfl, rfl, ?_⟩
       try dsimp only
       first
         | exact RefsExt.refl _
         | exact formatHeading_refsExt ..
         | exact refsExt_setDefs ..)

theorem handleInTable_stepOk (p : Parser) (l : List Char) :
    StepOk p (handleInTable p l).1 := by
  unfold handleInTable
  dsimp only
  repeat' split
  all_goals first
    | exact StepOk.refl p
    | exact (emitCurrentBlock_stepOk p).1
    | exact ((emitCurrentBlock_stepOk p).1).trans (handleReadyState_stepOk ..)
    | (refine ⟨rfl, rfl, ?_⟩
       try dsimp only
       first
         | exact RefsExt.refl _
         | exact formatHeading_refsExt ..
         | exact refsExt_setDefs ..)

theorem handleInBlockquote_stepOk (p : Parser) (l : List Char) :
    StepOk p (handleInBlockquote p l).1 := by
  unfold handleInBlockquote
  dsimp only
  repeat' split
  all_goals first
    | exact StepOk.refl p
    | exact (emitCurrentBlock_stepOk p).1
    | exact ((emitCurrentBlock_stepOk p).1).trans (handleReadyState_stepOk ..)
    | (refine ⟨rfl, rfl, ?_⟩
       try dsimp only
       first
         | exact RefsExt.refl _
         | exact formatHeading_refsExt ..
         | exact refsExt_setDefs ..)

theorem processLine_stepOk (p : Parser) (l : List Char) :
    StepOk p (processLine p l).1 := by
  unfold processLine
  split
  · exact handleReadyState_stepOk ..
  · exact handleInParagraph_stepOk ..
  · exact handleInCodeBlock_stepOk ..
  · exact handleInList_stepOk ..
  · exact handleInListAfterBlank_stepOk ..
  · exact handleInTable_stepOk ..
  · exact handleInBlockquote_stepOk ..

theorem processLines_stepOk (ls : List (List Char)) :
    ∀ (p : Parser), StepOk p (processLines p ls).1 := by
  induction ls with
  | nil => intro p; exact StepOk.refl p
  | cons l rest ih => intro p; exact (processLine_stepOk p l).trans (ih ..)

/-- The `feed` step keeps the width and only extends the resolver state;
the buffer becomes the split remainder. -/
theorem feed_stepOk (p : Parser) (c : List Char) :
    (feed p c).1.width = p.width ∧ RefsExt p.refs (feed p c).1.refs := by
  have h := processLines_stepOk (splitFullLines (p.buffer ++ c)).1 { p with buffer := [] }
  exact ⟨h.2.1, h.2.2⟩

theorem runChunks_refsExt (cs : List (List Char)) :
    ∀ (p : Parser), RefsExt p.refs (runChunks p cs).1.refs := by
  induction cs with
  | nil => intro p; exact RefsExt.refl _
  | cons c rest ih => intro p; exact ((feed_stepOk p c).2).trans (ih ..)

theorem flush_refsExt (p : Parser) : RefsExt p.refs (flush p).1.refs := by
  unfold flush
  dsimp only
  split
  · exact ((processLine_stepOk { p with buffer := [] } p.buffer).2.2).trans
      ((emitCurrentBlock_stepOk _).1.2.2)
  · exact (emitCurrentBlock_stepOk p).1.2.2

/-! ## State/builder coherence -/

/-- The `BlockBuilder` variant matches the `ParserState` variant:
`None`/`Ready`, `Paragraph`/`InParagraph`, `CodeBlock`/`InCodeBlock`,
`List`/`InList` or `InListAfterBlank`, `Table`/`InTable`,
`Blockquote`/`InBlockquote`. -/
def coherent (p : Parser) : Prop :=
  match p.state, p.current with
  | .ready, .none => True
  | .inParagraph, .paragraph _ => True
  | .inCodeBlock _ _ _, .codeBlock _ _ => True
  | .inList, .list _ => True
  | .inListAfterBlank, .list _ => True
  | .inTable, .table _ _ _ => True
  | .inBlockquote _, .blockquote _ _ => True
  | _, _ => False

theorem coherent_of (q : Parser) (h1 : q.state = ParserState.ready)
    (h2 : q.current = BlockBuilder.none) : coherent q := by
  obtain ⟨b, s, c, r, w⟩ := q
  dsimp only at h1 h2
  subst h1
  subst h2
  trivial

theorem emitCurrentBlock_coherent (p : Parser) : coherent (emitCurrentBlock p).1 :=
  coherent_of _ (emitCurrentBlock_stepOk p).2.1 (emitCurrentBlock_stepOk p).2.2

theorem handleReadyState_coherent (p : Parser) (l : List Char) (h : coherent p) :
    coherent (handleReadyState p l).1 := by
  obtain ⟨buf, st, cur, refs, w⟩ := p
  unfold handleReadyState
  dsimp only
  repeat' split
  all_goals try cases st
  all_goals first
    | trivial
    | exact h

theorem handleInParagraph_coherent (p : Parser) (l : List Char) (h : coherent p) :
    coherent (handleInParagraph p l).1 := by
  obtain ⟨buf, st, cur, refs, w⟩ := p
  unfold handleInParagraph
  dsimp only
  repeat' split
  all_goals try cases st
  all_goals first
    | trivial
    | exact h
    | exact h.elim
    | exact emitCurrentBlock_coherent ..

theorem handleInCodeBlock_coherent (p : Parser) (l : List Char) (h : coherent p) :
    coherent (handleInCodeBlock p l).1 := by
  obtain ⟨buf, st, cur, refs, w⟩ := p
  unfold handleInCodeBlock
  dsimp only
  repeat' split
  all_goals try cases st
  all_goals first
    | trivial
    | exact h
    | exact h.elim
    | exact emitCurrentBlock_coherent ..

theorem handleInList_coherent (p : Parser) (l : List Char) (h : coherent p)
    (hs : p.state = ParserState.inList) : coherent (handleInList p l).1 := by
  obtain ⟨buf, st, cur, refs, w⟩ := p
  dsimp only at hs
  subst hs
  unfold handleInList
  dsimp only
  repeat' split
  all_goals try cases cur
  all_goals first
    | trivial
    | exact h
    | exact h.elim
    | exact emitCurrentBlock_coherent ..
    | exact handleReadyState_coherent _ _ (emitCurrentBlock_coherent ..)

theorem handleInListAfterBlank_coherent (p : Parser) (l : List Char) (h : coherent p)
    (hs : p.state = ParserState.inListAfterBlank) :
    coherent (handleInListAfterBlank p l).1 := by
  obtain ⟨buf, st, cur, refs, w⟩ := p
  dsimp only at hs
  subst hs
  unfold handleInListAfterBlank
  dsimp only
  repeat' split
  all_goals try cases cur
  all_goals first
    | trivial
    | exact h
    | exact h.elim
    | exact emitCurrentBlock_coherent ..
    | exact handleReadyState_coherent _ _ (emitCurrentBlock_coherent ..)
    | exact handleInList_coherent _ _ True.intro rfl
    | exact handleInList_coherent _ _ h.elim rfl

theorem handleInTable_coherent (p : Parser) (l : List Char) (h : coherent p) :
    coherent (handleInTable p l).1 := by
  obtain ⟨buf, st, cur, refs, w⟩ := p
  unfold handleInTable
  dsimp only
  repeat' split
  all_goals try cases st
  all_goals first
    | trivial
    | exact h
    | exact h.elim
    | exact emitCurrentBlock_coherent ..
    | exact handleReadyState_coherent _ _ (emitCurrentBlock_coherent ..)

theorem handleInBlockquote_coherent (p : Parser) (l : List Char) (h : coherent p) :
    coherent (handleInBlockquote p l).1 := by
  obtain ⟨buf, st, cur, refs, w⟩ := p
  unfold handleInBlockquote
  dsimp only
  repeat' split
  all_goals try cases st
  all_goals first
    | trivial
    | exact h
    | exact h.elim
    | exact emitCurrentBlock_coherent ..

theorem processLine_coherent (p : Parser) (l : List Char) (h : coherent p) :
    coherent (processLine p l).1 := by
  unfold processLine
  split
  · exact handleReadyState_coherent _ _ h
  · exact handleInParagraph_coherent _ _ h
  · exact handleInCodeBlock_coherent _ _ h
  all_goals rename_i hs
  · exact handleInList_coherent _ _ h hs
  · exact handleInListAfterBlank_coherent _ _ h hs
  · exact handleInTable_coherent _ _ h
  · exact handleInBlockquote_coherent _ _ h

theorem processLines_coherent (ls : List (List Char)) :
    ∀ (p : Parser), coherent p → coherent (processLines p ls).1 := by
  induction ls with
  | nil => intro p h; exact h
  | cons l rest ih => intro p h; exact ih _ (processLine_coherent _ _ h)

theorem feed_coherent (p : Parser) (c : List Char) (h : coherent p) :
    coherent (feed p c).1 := by
  have hb : coherent { p with buffer := ([] : List Char) } := h
  exact processLines_coherent _ _ hb

theorem runChunks_coherent (cs : List (List Char)) :
    ∀ (p : Parser), coherent p → coherent (runChunks p cs).1 := by
  induction cs with
  | nil => intro p h; exact h
  | cons c rest ih => intro p h; exact ih _ (feed_coherent _ _ h)

theorem flush_coherent (p : Parser) (h : coherent p) : coherent (flush p).1 := by
  unfold flush
  dsimp only
  split
  · exact emitCurrentBlock_coherent ..
  · exact emitCurrentBlock_coherent ..

/-! ## Re-chunking invariance -/

theorem linesGo_append (a : List Char) :
    ∀ (cur b : List Char),
      linesGo cur (a ++ b) =
        ((linesGo cur a).1 ++ (linesGo (linesGo cur a).2 b).1,
         (linesGo (linesGo cur a).2 b).2) := by
  induction a with
  | nil => intro cur b; simp [linesGo]
  | cons c a2 ih =>
    intro cur b
    by_cases hc : c = '\n'
    · subst hc; simp [linesGo, ih]
    · simp only [List.cons_append, linesGo, if_neg hc]
      exact ih (cur ++ [c]) b

theorem linesGo_nonl (l : List Char) :
    ∀ (cur : List Char), (∀ c ∈ cur, c ≠ '\n') →
      ∀ c ∈ (linesGo cur l).2, c ≠ '\n' := by
  induction l with
  | nil => intro cur h; simpa [linesGo] using h
  | cons c r ih =>
    intro cur h
    by_cases hc : c = '\n'
    · subst hc
      simp only [linesGo, if_pos rfl]
      exact ih [] (fun x hx => absurd hx (List.not_mem_nil x))
    · simp only [linesGo, if_neg hc]
      refine ih (cur ++ [c]) ?_
      intro x hx
      rcases List.mem_append.1 hx with h1 | h1
      · exact h x h1
      · rw [List.mem_singleton.1 h1]; exact hc

theorem linesGo_all_nonl (l : List Char) :
    ∀ (cur : List Char), (∀ c ∈ l, c ≠ '\n') → linesGo cur l = ([], cur ++ l) := by
  induction l with
  | nil => intro cur h; simp [linesGo]
  | cons c r ih =>
    intro cur h
    have hc : c ≠ '\n' := h c (List.mem_cons_self ..)
    simp only [linesGo, if_neg hc]
    rw [ih (cur ++ [c]) (fun x hx => h x (List.mem_cons_of_mem _ hx))]
    simp

theorem linesGo_prefix_nonl (pre : List Char) :
    ∀ (cur rest : List Char), (∀ c ∈ pre, c ≠ '\n') →
      linesGo cur (pre ++ rest) = linesGo (cur ++ pre) rest := by
  induction pre with
  | nil => intro cur rest _; simp
  | cons c p2 ih =>
    intro cur rest h
    have hc : c ≠ '\n' := h c (List.mem_cons_self ..)
    simp only [List.cons_append, linesGo, if_neg hc]
    have h2 := ih (cur ++ [c]) rest (fun x hx => h x (List.mem_cons_of_mem _ hx))
    rw [List.append_assoc] at h2
    exact h2

theorem processLines_append (ls1 ls2 : List (List Char)) :
    ∀ (p : Parser),
      processLines p (ls1 ++ ls2) =
        ((processLines (processLines p ls1).1 ls2).1,
         (processLines p ls1).2 ++ (processLines (processLines p ls1).1 ls2).2) := by
  induction ls1 with
  | nil => intro p; simp [processLines]
  | cons l rest ih =>
    intro p
    rw [List.cons_append]
    simp only [processLines]
    rw [ih]
    simp [List.append_assoc]

theorem setBuffer_eq (q : Parser) (b : List Char) (h : q.buffer = b) :
    { q with buffer := b } = q := by
  cases q
  cases h
  rfl

theorem splitFullLines_append (a b : List Char) :
    splitFullLines (a ++ b) =
      ((splitFullLines a).1 ++ (linesGo (splitFullLines a).2 b).1,
       (linesGo (splitFullLines a).2 b).2) :=
  linesGo_append a [] b

theorem splitFullLines_nonlPre (pre rest : List Char) (h : ∀ c ∈ pre, c ≠ '\n') :
    splitFullLines (pre ++ rest) = linesGo pre rest := by
  have h2 := linesGo_prefix_nonl pre [] rest h
  rw [List.nil_append] at h2
  exact h2

theorem feed_append (p : Parser) (s1 s2 : List Char) :
    feed p (s1 ++ s2) =
      ((feed (feed p s1).1 s2).1, (feed p s1).2 ++ (feed (feed p s1).1 s2).2) := by
  have hrem : ∀ c ∈ (splitFullLines (p.buffer ++ s1)).2, c ≠ '\n' :=
    linesGo_nonl _ [] (fun x hx => absurd hx (List.not_mem_nil x))
  have hbuf : (processLines { p with buffer := ([] : List Char) }
      (splitFullLines (p.buffer ++ s1)).1).1.buffer = [] :=
    (processLines_stepOk _ _).1
  unfold feed
  dsimp only
  rw [show p.buffer ++ (s1 ++ s2) = (p.buffer ++ s1) ++ s2 from (List.append_assoc ..).symm]
  rw [splitFullLines_append (p.buffer ++ s1) s2]
  dsimp only
  rw [processLines_append]
  rw [splitFullLines_nonlPre _ s2 hrem]
  rw [setBuffer_eq _ _ hbuf]

theorem feed_nil (p : Parser) (h : ∀ c ∈ p.buffer, c ≠ '\n') : feed p [] = (p, []) := by
  unfold feed splitFullLines
  dsimp only
  rw [List.append_nil]
  rw [linesGo_all_nonl p.buffer [] h]
  dsimp only [processLines]
  rw [List.nil_append]

theorem runChunks_eq_feed (cs : List (List Char)) :
    ∀ (p : Parser), (∀ c ∈ p.buffer, c ≠ '\n') →
      runChunks p cs = feed p cs.flatten := by
  induction cs with
  | nil =>
    intro p h
    rw [List.flatten_nil, feed_nil p h]
    rfl
  | cons c cs ih =>
    intro p h
    have hb : ∀ x ∈ (feed p c).1.buffer, x ≠ '\n' :=
      linesGo_nonl _ [] (fun x hx => absurd hx (List.not_mem_nil x))
    rw [List.flatten_cons, feed_append p c cs.flatten]
    show ((runChunks (feed p c).1 cs).1, (feed p c).2 ++ (runChunks (feed p c).1 cs).2) = _
    rw [ih (feed p c).1 hb]

/-- C1: for every width configuration and every way of splitting an input
into chunks, feeding the chunks one by one and then flushing produces
exactly the same output text as feeding the whole input as a single chunk
and then flushing, on a freshly constructed parser. -/
theorem rechunking_invariance (w : Nat) (chunks : List (List Char)) :
    (runChunks (initParser w) chunks).2 ++ (flush (runChunks (initParser w) chunks).1).2 =
      (feed (initParser w) chunks.flatten).2 ++
        (flush (feed (initParser w) chunks.flatten).1).2 := by
  rw [runChunks_eq_feed chunks (initParser w) (fun c hc => absurd hc (List.not_mem_nil c))]

theorem runChunks_append (cs1 cs2 : List (List Char)) :
    ∀ (p : Parser),
      runChunks p (cs1 ++ cs2) =
        ((runChunks (runChunks p cs1).1 cs2).1,
         (runChunks p cs1).2 ++ (runChunks (runChunks p cs1).1 cs2).2) := by
  induction cs1 with
  | nil => intro p; simp [runChunks]
  | cons c rest ih =>
    intro p
    rw [List.cons_append]
    simp only [runChunks]
    rw [ih]
    simp [List.append_assoc]

/-- C8: the BlockBuilder variant always matches the ParserState variant —
the invariant is preserved by every line-processing step, and it holds
after any sequence of feeds from a fresh parser and after the flush
(emission resets to Ready with builder None in one step). -/
theorem state_builder_coherence :
    (∀ (p : Parser) (l : List Char), coherent p → coherent (processLine p l).1) ∧
    (∀ (w : Nat) (chunks : List (List Char)),
      coherent (runChunks (initParser w) chunks).1 ∧
      coherent (flush (runChunks (initParser w) chunks).1).1) :=
  ⟨fun p l h => processLine_coherent p l h,
   fun w chunks =>
     ⟨runChunks_coherent chunks (initParser w) trivial,
      flush_coherent _ (runChunks_coherent chunks (initParser w) trivial)⟩⟩

/-- Witness for C8 at a concrete input: one processed line preserves
coherence of a fresh parser. -/
theorem state_builder_coherence_witness :
    coherent (processLine (initParser 80) "- item\n".data).1 :=
  state_builder_coherence.1 (initParser 80) "- item\n".data trivial

/-- C7: citation numbers are allocated strictly increasing from 1 over the
lifetime of one parser instance — after any chunk sequence the ledger is
numbered exactly `1, …, n` in order with the counter at `n + 1`, and any
further feeding or the flush only appends to the ledger (numbers are never
reassigned or renumbered). -/
theorem citation_numbering (w : Nat) (chunks : List (List Char)) :
    citesGood (runChunks (initParser w) chunks).1.refs ∧
    citesGood (flush (runChunks (initParser w) chunks).1).1.refs ∧
    (∀ more, ∃ new,
      (runChunks (initParser w) (chunks ++ more)).1.refs.citations =
        (runChunks (initParser w) chunks).1.refs.citations ++ new) ∧
    (∃ new,
      (flush (runChunks (initParser w) chunks).1).1.refs.citations =
        (runChunks (initParser w) chunks).1.refs.citations ++ new) := by
  have hinit : citesGood (initParser w).refs := ⟨rfl, rfl⟩
  have h1 := runChunks_refsExt chunks (initParser w)
  have hg1 : citesGood (runChunks (initParser w) chunks).1.refs := h1.2.1 hinit
  have h2 := flush_refsExt (runChunks (initParser w) chunks).1
  refine ⟨hg1, h2.2.1 hg1, ?_, h2.1⟩
  intro more
  rw [runChunks_append]
  exact (runChunks_refsExt more _).1

/-! ## Backslash escapes, width measurement, total degradation -/

/-- C2: the scan loop of `format_inline` has no backslash-escape branch at
all: on the input `\*x*` the backslash is copied as an ordinary literal
character and the following `*` still opens emphasis, so the output is the
backslash followed by an italicised `x` rather than the literal `*x*` the
escape rule would demand. -/
theorem backslash_escape_not_implemented :
    (formatInline 100 Refs.init ('\\' :: "*x*".data)).1 =
      '\\' :: (sgr "3" ++ ['x'] ++ sgr "0") ∧
    stripAnsi (formatInline 100 Refs.init ('\\' :: "*x*".data)).1 = ['\\', 'x'] := by decide

/-- C3: the width measure used by `wrap_text` is the plain character count
of the ANSI-stripped text: SGR and OSC sequences are indeed skipped
atomically, but a wide emoji (U+2705) and a full-width CJK character
(U+4E2D) each count as one column, not two, so the measure is not
Unicode-display-width aware. -/
theorem visible_width_not_unicode_aware :
    tokWidth [Char.ofNat 0x2705] = 1 ∧
    (stripAnsi (sgr "1" ++ [Char.ofNat 0x2705] ++ sgr "0")).length = 1 ∧
    (stripAnsi (osc8Open "u".data ++ [Char.ofNat 0x4E2D] ++ osc8Close)).length = 1 := by decide

/-- C9: total degradation fails: the line `<!-->` is non-blank, passes both
the `<!--` prefix and `-->` suffix tests of `is_html_comment_line` (which
`handle_ready_state` consults on every non-blank line in the ready state),
and its trimmed length is below 7, so the slice `&trimmed[4..len-3]` the
source then takes has an inverted range and panics.  The unmatched-marker
half of the claim does hold: an emphasis opener with no closing marker is
copied literally, as the second conjunct shows on `ab*cd`. -/
theorem total_degradation_refuted :
    trimEndMatches '\n' "<!-->\n".data ≠ [] ∧
    commentSlicePanics (trimEndMatches '\n' "<!-->\n".data) = true ∧
    (formatInline 100 Refs.init "ab*cd".data).1 = "ab*cd".data := by decide

/-! ## Wrapping of whitespace-only input (C5) -/

/-- The tokenizer of `wrap_text` produces no token on all-whitespace
input. -/
theorem tokGo_ws : ∀ (l : List Char), (∀ c ∈ l, isUniWs c = true) →
    tokGo .normal [] l = [] := by
  intro l
  induction l with
  | nil => intro _; rfl
  | cons c r ih =>
    intro h
    have hc : isUniWs c = true := h c (List.mem_cons_self ..)
    have hesc : ¬(c = escC) := fun he => by rw [he] at hc; exact absurd hc (by decide)
    have ih2 := ih (fun x hx => h x (List.mem_cons_of_mem _ hx))
    simp [tokGo, hesc, hc, ih2]

/-- C5 (amended): on empty or whitespace-only input `wrap_text` returns the
first indent followed by a newline — not the bare first indent the claim
states: the empty-token early return is `format!("{}\n", first_indent)`. -/
theorem wrap_empty_input (w : Nat) (text fi ci : List Char)
    (h : ∀ c ∈ text, isUniWs c = true) :
    wrapText w text fi ci = fi ++ ['\n'] := by
  unfold wrapText
  rw [show wrapTokens text = [] from tokGo_ws text h, if_pos rfl]

/-- C5 counterexample: on empty input with first indent `AB` the source
returns `AB` plus a newline, which is not the bare first indent. -/
theorem wrap_empty_input_counterexample :
    wrapText 80 [] "AB".data "CD".data = "AB\n".data ∧
    "AB\n".data ≠ "AB".data := by decide

/-- Witness for C5 at a concrete whitespace-only input. -/
theorem wrap_empty_input_witness :
    wrapText 80 [' ', '\t'] "AB".data "CD".data = "AB".data ++ ['\n'] :=
  wrap_empty_input 80 [' ', '\t'] "AB".data "CD".data (by decide)

/-! ## First-writer-wins link definitions (C6) -/

/-- C6: the link-definition table is first-writer-wins over the whole life
of one parser: a stored binding survives every further chunk and the final
flush unchanged (so the `(url, title)` any later resolution or the
bibliography reads is the first definition's), and at the table level an
insert under an already-present key is the identity. -/
theorem link_definition_first_wins (w : Nat) (chunks : List (List Char))
    (k : List Char) (v : List Char × Option (List Char))
    (h : lookupDef (runChunks (initParser w) chunks).1.refs.linkDefs k = some v) :
    (∀ more, lookupDef (runChunks (initParser w) (chunks ++ more)).1.refs.linkDefs k = some v) ∧
    lookupDef (flush (runChunks (initParser w) chunks).1).1.refs.linkDefs k = some v ∧
    (∀ (defs : List (List Char × (List Char × Option (List Char))))
       (key : List Char) (val v0 : List Char × Option (List Char)),
       lookupDef defs key = some v0 → insertIfAbsent defs key val = defs) := by
  refine ⟨?_, (flush_refsExt _).2.2 k v h, ?_⟩
  · intro more
    rw [runChunks_append]
    exact (runChunks_refsExt more _).2.2 k v h
  · intro defs key val v0 h0
    unfold insertIfAbsent
    rw [if_pos]
    unfold lookupDef at h0
    cases hf : defs.find? (fun e => e.1 == key) with
    | none => rw [hf] at h0; exact absurd h0 (by simp)
    | some e => simp [hf]

/-- Witness for C6: two definitions of the label `a`; the stored URL is the
first one's, and it survives further input and the flush. -/
theorem link_definition_first_wins_witness :
    lookupDef (runChunks (initParser 80)
        ["[a]: /one\n".data, "[a]: /two\n".data]).1.refs.linkDefs "a".data =
      some ("/one".data, none) ∧
    ((∀ more, lookupDef (runChunks (initParser 80)
        (["[a]: /one\n".data, "[a]: /two\n".data] ++ more)).1.refs.linkDefs "a".data =
        some ("/one".data, none)) ∧
     lookupDef (flush (runChunks (initParser 80)
        ["[a]: /one\n".data, "[a]: /two\n".data]).1).1.refs.linkDefs "a".data =
        some ("/one".data, none) ∧
     (∀ (defs : List (List Char × (List Char × Option (List Char))))
        (key : List Char) (val v0 : List Char × Option (List Char)),
        lookupDef defs key = some v0 → insertIfAbsent defs key val = defs)) :=
  ⟨by decide,
   link_definition_first_wins 80 ["[a]: /one\n".data, "[a]: /two\n".data]
     "a".data ("/one".data, none) (by decide)⟩

/-! ## The wrap width bound (C4) -/

/-- A packed line body: the tokens of one output line in order, each
carrying whether the loop put a single space before it. -/
def bodyOf : List (Bool × List Char) → List Char
  | [] => []
  | bt :: ts => (if bt.1 then ' ' :: bt.2 else bt.2) ++ bodyOf ts

/-- The visible width the packing loop accounts for a body: one column per
inserted space plus each token's ANSI-stripped character count. -/
def bodyW : List (Bool × List Char) → Nat
  | [] => 0
  | bt :: ts => (if bt.1 then 1 else 0) + tokWidth bt.2 + bodyW ts

theorem bodyOf_append (a b : List (Bool × List Char)) :
    bodyOf (a ++ b) = bodyOf a ++ bodyOf b := by
  induction a with
  | nil => simp [bodyOf]
  | cons x a ih => simp [bodyOf, ih]

theorem bodyW_append (a b : List (Bool × List Char)) :
    bodyW (a ++ b) = bodyW a + bodyW b := by
  induction a with
  | nil => simp [bodyW]
  | cons x a ih =>
    rw [List.cons_append]
    simp only [bodyW]
    rw [ih]
    omega

theorem bodyW_zero : ∀ (ts : List (Bool × List Char)), bodyW ts = 0 →
    ∀ bt ∈ ts, bt.1 = false ∧ tokWidth bt.2 = 0 := by
  intro ts
  induction ts with
  | nil => intro _ bt hbt; exact absurd hbt (List.not_mem_nil bt)
  | cons x ts ih =>
    intro h bt hbt
    by_cases hx : x.1 = true
    · exfalso
      unfold bodyW at h
      rw [if_pos hx] at h
      omega
    · unfold bodyW at h
      rw [if_neg hx] at h
      rcases List.mem_cons.mp hbt with h1 | h2
      · subst h1
        have hb : bt.1 = false := by revert hx; cases bt.1 <;> simp
        exact ⟨hb, by omega⟩
      · exact ih (by omega) bt h2

/-- What the packing loop may emit as one finished line: an indent (first
or continuation) followed by whole tokens of the input, each optionally
preceded by one inserted space; the accounted width is within the
configured width, or the line is the indent followed by a run of
zero-visible-width tokens and one final token placed at the start of the
line. -/
def wLineOk (width : Nat) (toks : List (List Char)) (fi ci : List Char) (l : List Char) : Prop :=
  ∃ ind ts, (ind = fi ∨ ind = ci) ∧
    (∀ bt ∈ ts, bt.2 ∈ toks) ∧
    l = ind ++ bodyOf ts ∧
    (ind.length + bodyW ts ≤ width ∨
     ∃ pre t, ts = pre ++ [(false, t)] ∧ ∀ bt ∈ pre, bt.1 = false ∧ tokWidth bt.2 = 0)

/-- Invariant of the greedy packing loop of `wrap_text`: every finished
line is a good line, and the pending line is the current indent plus a
packed body whose accounted width is exactly the loop counter `cw`. -/
def wInv (width : Nat) (toks : List (List Char)) (fi ci : List Char) (st : WrapSt) : Prop :=
  (∀ l ∈ st.lines, wLineOk width toks fi ci l) ∧
  ∃ ts, (∀ bt ∈ ts, bt.2 ∈ toks) ∧
    st.cl = (if st.first = true then fi else ci) ++ bodyOf ts ∧
    st.cw = (if st.first = true then fi.length else ci.length) + bodyW ts ∧
    (ts = [] ∨ st.cw ≤ width ∨
     ∃ pre t, ts = pre ++ [(false, t)] ∧ ∀ bt ∈ pre, bt.1 = false ∧ tokWidth bt.2 = 0)

theorem wrapStep_inv (width : Nat) (toks : List (List Char)) (fi ci : List Char)
    (st : WrapSt) (t : List Char) (ht : t ∈ toks)
    (hinv : wInv width toks fi ci st) :
    wInv width toks fi ci (wrapStep width fi ci st t) := by
  obtain ⟨hlines, ts, hts, hcl, hcw, hdisj⟩ := hinv
  have hiw : (if st.first = true then fi.length else ci.length) =
      (if st.first = true then fi else ci).length := by cases st.first <;> rfl
  unfold wrapStep
  dsimp only
  by_cases hgt : st.cw > (if st.first = true then fi.length else ci.length)
  · rw [if_pos hgt]
    have hpush : wLineOk width toks fi ci st.cl := by
      refine ⟨(if st.first = true then fi else ci), ts, ?_, hts, hcl, ?_⟩
      · cases st.first <;> simp
      · rcases hdisj with h0 | hle | hz
        · exfalso
          rw [h0] at hcw
          simp [bodyW] at hcw
          omega
        · left
          rw [← hiw]
          omega
        · right; exact hz
    by_cases hov : st.cw + 1 + tokWidth t > width
    · rw [if_pos hov]
      refine ⟨?_, [(false, t)], ?_, ?_, ?_, ?_⟩
      · intro l hl
        rcases List.mem_append.mp hl with h1 | h2
        · exact hlines l h1
        · rw [List.mem_singleton.mp h2]; exact hpush
      · intro bt hbt; rw [List.mem_singleton.mp hbt]; exact ht
      · dsimp only; simp [bodyOf]
      · dsimp only; simp [bodyW]
      · right; right
        exact ⟨[], t, by simp, fun bt hbt => absurd hbt (List.not_mem_nil bt)⟩
    · rw [if_neg hov]
      refine ⟨hlines, ts ++ [(true, t)], ?_, ?_, ?_, ?_⟩
      · intro bt hbt
        rcases List.mem_append.mp hbt with h1 | h2
        · exact hts bt h1
        · rw [List.mem_singleton.mp h2]; exact ht
      · dsimp only
        rw [hcl, bodyOf_append]
        simp [bodyOf]
      · dsimp only
        rw [hcw, bodyW_append]
        simp [bodyW]
        omega
      · right; left
        dsimp only
        omega
  · rw [if_neg hgt]
    have hbw : bodyW ts = 0 := by rw [hcw] at hgt; omega
    refine ⟨hlines, ts ++ [(false, t)], ?_, ?_, ?_, ?_⟩
    · intro bt hbt
      rcases List.mem_append.mp hbt with h1 | h2
      · exact hts bt h1
      · rw [List.mem_singleton.mp h2]; exact ht
    · dsimp only
      rw [hcl, bodyOf_append]
      simp [bodyOf]
    · dsimp only
      rw [hcw, bodyW_append]
      simp [bodyW]
      omega
    · right; right
      exact ⟨ts, t, rfl, bodyW_zero ts hbw⟩

theorem wrapFold_inv (width : Nat) (toks : List (List Char)) (fi ci : List Char) :
    ∀ (ts : List (List Char)) (st : WrapSt),
      (∀ t ∈ ts, t ∈ toks) →
      wInv width toks fi ci st →
      wInv width toks fi ci (ts.foldl (wrapStep width fi ci) st) := by
  intro ts
  induction ts with
  | nil => intro st _ h; exact h
  | cons t ts ih =>
    intro st hts hinv
    exact ih _ (fun x hx => hts x (List.mem_cons_of_mem _ hx))
      (wrapStep_inv width toks fi ci st t (hts t (List.mem_cons_self ..)) hinv)

/-- C4 (amended): every line `wrap_text` produces is the bare first indent,
or an indent (first or continuation) immediately followed by whole tokens
of the input, each optionally preceded by the single space the loop
inserts — tokens are never force-broken.  The line is within the
configured width under the measure the source itself tracks (indent
character count, plus each token's ANSI-stripped character count, plus one
column per inserted space), except when the line is the indent followed by
a possibly-empty run of zero-visible-width tokens and one final token
placed at the start of a line: such a line may overflow, and — as the
counterexample shows — it can overflow even when its token alone fits,
because the indent columns count toward the budget. -/
theorem wrap_width_bound (width : Nat) (text fi ci : List Char) :
    ∀ l ∈ wrapLines width text fi ci,
      l = fi ∨
      ∃ ind ts, (ind = fi ∨ ind = ci) ∧
        (∀ bt ∈ ts, bt.2 ∈ wrapTokens text) ∧
        l = ind ++ bodyOf ts ∧
        (ind.length + bodyW ts ≤ width ∨
         ∃ pre t, ts = pre ++ [(false, t)] ∧ ∀ bt ∈ pre, bt.1 = false ∧ tokWidth bt.2 = 0) := by
  have hinv0 : wInv width (wrapTokens text) fi ci ⟨[], fi, fi.length, true⟩ := by
    refine ⟨fun l hl => absurd hl (List.not_mem_nil l), [], ?_, ?_, ?_, Or.inl rfl⟩
    · intro bt hbt; exact absurd hbt (List.not_mem_nil bt)
    · simp [bodyOf]
    · simp [bodyW]
  have hinv := wrapFold_inv width (wrapTokens text) fi ci (wrapTokens text)
    ⟨[], fi, fi.length, true⟩ (fun t ht => ht) hinv0
  intro l hl
  unfold wrapLines wrapFinish at hl
  generalize hstdef : (wrapTokens text).foldl (wrapStep width fi ci)
    ⟨[], fi, fi.length, true⟩ = st at hl
  rw [hstdef] at hinv
  obtain ⟨hlines, ts, hts, hcl, hcw, hdisj⟩ := hinv
  have hiw : (if st.first = true then fi.length else ci.length) =
      (if st.first = true then fi else ci).length := by cases st.first <;> rfl
  split at hl
  · rename_i hguard
    rcases List.mem_append.mp hl with h1 | h2
    · exact Or.inr (hlines l h1)
    · rw [List.mem_singleton.mp h2]
      right
      refine ⟨(if st.first = true then fi else ci), ts, ?_, hts, hcl, ?_⟩
      · cases st.first <;> simp
      · rcases hdisj with h0 | hle | hz
        · exfalso
          rw [h0] at hcl
          simp only [bodyOf, List.append_nil] at hcl
          cases hfs : st.first with
          | true => rw [hfs] at hcl; simp at hcl; exact hguard.2.1 hcl
          | false => rw [hfs] at hcl; simp at hcl; exact hguard.2.2 hcl
        · left
          rw [← hiw]
          omega
        · right; exact hz
  · split at hl
    · rw [List.mem_singleton.mp hl]
      exact Or.inl rfl
    · exact Or.inr (hlines l hl)

/-- C4 counterexample: width 5, first indent of four spaces, text `abc`.
The single produced line has visible width 7 > 5 although its sole token
`abc` has width 3 ≤ 5, so the claim's only permitted exception (a token
alone exceeding the width) does not apply. -/
theorem wrap_width_bound_counterexample :
    wrapLines 5 "abc".data "    ".data [] = ["    abc".data] ∧
    tokWidth "    abc".data = 7 ∧
    ∀ t ∈ wrapTokens "abc".data, tokWidth t ≤ 5 := by decide

/-- Witness for C4 at a concrete input and a concrete produced line. -/
theorem wrap_width_bound_witness :
    "ab".data = "".data ∨
    ∃ ind ts, (ind = "".data ∨ ind = "".data) ∧
      (∀ bt ∈ ts, bt.2 ∈ wrapTokens "ab cd".data) ∧
      "ab".data = ind ++ bodyOf ts ∧
      (ind.length + bodyW ts ≤ 4 ∨
       ∃ pre t, ts = pre ++ [(false, t)] ∧ ∀ bt ∈ pre, bt.1 = false ∧ tokWidth bt.2 = 0) :=
  wrap_width_bound 4 "ab cd".data "".data "".data "ab".data (by decide)

/-! ## Entity decoding without a terminating semicolon (C10) -/

/-- The text after an entity cannot extend the entity name: it is the end
of input, or its first character is a semicolon, whitespace, an ampersand,
or not ASCII-alphanumeric-or-hash (the stop conditions of the scan loop of
`decode_html_entity`). -/
def entTerm (rest : List Char) : Prop :=
  rest = [] ∨ ∃ c cs, rest = c :: cs ∧
    (c = ';' ∨ isUniWs c = true ∨ c = '&' ∨ ¬(c.isAlphanum = true ∨ c = '#'))

/-- Every key of the static entity table is a non-empty ASCII-alphanumeric
word of at most 11 characters not starting with `#`. -/
theorem htmlEntities_keys_ok :
    ∀ e ∈ htmlEntities, e.1 ≠ [] ∧ e.1.length ≤ 11 ∧ e.1.head? ≠ some '#' ∧
      (∀ c ∈ e.1, c.isAlphanum = true) ∧
      (∀ c ∈ e.1, ¬(c = ';') ∧ isUniWs c = false ∧ ¬(c = '&')) := by decide

/-- An ASCII digit passes every guard of the name scan. -/
theorem digitClass (c : Char) (h : c.isDigit = true) :
    (c.isAlphanum = true ∨ c = '#') ∧ (¬(c = ';') ∧ isUniWs c = false ∧ ¬(c = '&')) := by
  have hb := h
  simp [Char.isDigit] at hb
  have n1 : 48 ≤ c.toNat := hb.1
  have n2 : c.toNat ≤ 57 := hb.2
  refine ⟨Or.inl (by simp [Char.isAlphanum, h]), ?_, ?_, ?_⟩
  · intro he; subst he; exact absurd h (by decide)
  · simp [isUniWs]; omega
  · intro he; subst he; exact absurd h (by decide)

/-- A lowercase hex letter passes every guard of the name scan. -/
theorem hexLetterLowClass (c : Char) (h1 : 'a' ≤ c) (h2 : c ≤ 'f') :
    (c.isAlphanum = true ∨ c = '#') ∧ (¬(c = ';') ∧ isUniWs c = false ∧ ¬(c = '&')) := by
  have n1 : 97 ≤ c.toNat := h1
  have n2 : c.toNat ≤ 102 := h2
  have hlow : c.isLower = true := by
    simp [Char.isLower]
    refine ⟨h1, ?_⟩
    show c.toNat ≤ 122
    omega
  refine ⟨Or.inl (by simp [Char.isAlphanum, Char.isAlpha, hlow]), ?_, ?_, ?_⟩
  · intro he; subst he; exact absurd n1 (by decide)
  · simp [isUniWs]; omega
  · intro he; subst he; exact absurd n1 (by decide)

/-- An uppercase hex letter passes every guard of the name scan. -/
theorem hexLetterUpClass (c : Char) (h1 : 'A' ≤ c) (h2 : c ≤ 'F') :
    (c.isAlphanum = true ∨ c = '#') ∧ (¬(c = ';') ∧ isUniWs c = false ∧ ¬(c = '&')) := by
  have n1 : 65 ≤ c.toNat := h1
  have n2 : c.toNat ≤ 70 := h2
  have hup : c.isUpper = true := by
    simp [Char.isUpper]
    refine ⟨h1, ?_⟩
    show c.toNat ≤ 90
    omega
  refine ⟨Or.inl (by simp [Char.isAlphanum, Char.isAlpha, hup]), ?_, ?_, ?_⟩
  · intro he; subst he; exact absurd n1 (by decide)
  · simp [isUniWs]; omega
  · intro he; subst he; exact absurd n1 (by decide)

/-- Any character `hexDigitVal` accepts passes every guard of the name
scan. -/
theorem hexDigitClass (c : Char) (h : (hexDigitVal c).isSome = true) :
    (c.isAlphanum = true ∨ c = '#') ∧ (¬(c = ';') ∧ isUniWs c = false ∧ ¬(c = '&')) := by
  unfold hexDigitVal at h
  split at h
  · rename_i hd; exact digitClass c hd
  · split at h
    · rename_i hr; exact hexLetterLowClass c hr.1 hr.2
    · split at h
      · rename_i hr; exact hexLetterUpClass c hr.1 hr.2
      · simp at h

theorem stripPre_cons (c : Char) (l : List Char) : stripPre [c] (c :: l) = some l := by
  simp [stripPre, List.isPrefixOf]

theorem stripPre_consNe (p c : Char) (l : List Char) (h : ¬(c = p)) :
    stripPre [p] (c :: l) = none := by
  have h2 : ¬(p = c) := fun hh => h hh.symm
  simp [stripPre, List.isPrefixOf, h2]

/-- A successful decimal parse certifies a non-empty all-digit string. -/
theorem parseDecU32_facts (l : List Char) (v : Nat) (h : parseDecU32 l = some v) :
    l ≠ [] ∧ ∀ c ∈ l, c.isDigit = true := by
  unfold parseDecU32 at h
  split at h
  · exact absurd h (by simp)
  · rename_i hne
    split at h
    · rename_i hall
      exact ⟨hne, fun c hc => by have := List.all_eq_true.mp hall c hc; simpa using this⟩
    · exact absurd h (by simp)

theorem hexStep_none (c : Char) : hexStep none c = none := by
  cases h : hexDigitVal c <;> rfl

theorem hexFold_none : ∀ (l : List Char), l.foldl hexStep none = none := by
  intro l
  induction l with
  | nil => rfl
  | cons c l ih =>
    show l.foldl hexStep (hexStep none c) = none
    rw [hexStep_none]
    exact ih

/-- A successful hex fold certifies that every character is a hex digit. -/
theorem hexFold_chars : ∀ (l : List Char) (a v : Nat),
    l.foldl hexStep (some a) = some v → ∀ c ∈ l, (hexDigitVal c).isSome = true := by
  intro l
  induction l with
  | nil => intro a v _ c hc; exact absurd hc (List.not_mem_nil c)
  | cons c0 l ih =>
    intro a v h c hc
    cases hd : hexDigitVal c0 with
    | none =>
      exfalso
      have hz : hexStep (some a) c0 = none := by unfold hexStep; rw [hd]
      rw [show (c0 :: l).foldl hexStep (some a) = l.foldl hexStep (hexStep (some a) c0) from rfl,
        hz, hexFold_none] at h
      exact Option.noConfusion h
    | some d =>
      rcases List.mem_cons.mp hc with h1 | h2
      · subst h1; rw [hd]; rfl
      · have hstep : hexStep (some a) c0 = some (a * 16 + d) ∨ hexStep (some a) c0 = none := by
          unfold hexStep
          rw [hd]
          dsimp only
          split
          · exact Or.inl rfl
          · exact Or.inr rfl
        rcases hstep with hs | hs
        · refine ih (a * 16 + d) v ?_ c h2
          rw [show (c0 :: l).foldl hexStep (some a) = l.foldl hexStep (hexStep (some a) c0) from rfl,
            hs] at h
          exact h
        · exfalso
          rw [show (c0 :: l).foldl hexStep (some a) = l.foldl hexStep (hexStep (some a) c0) from rfl,
            hs, hexFold_none] at h
          exact Option.noConfusion h

theorem parseHexU32_chars (l : List Char) (v : Nat) (h : parseHexU32 l = some v) :
    l ≠ [] ∧ ∀ c ∈ l, (hexDigitVal c).isSome = true := by
  unfold parseHexU32 at h
  split at h
  · exact absurd h (by simp)
  · rename_i hne; exact ⟨hne, hexFold_chars l 0 v h⟩

/-- The name-scanning loop consumes exactly the entity name when the next
character (if any) cannot extend it. -/
theorem entScan_exact (rest : List Char) (hterm : entTerm rest) :
    ∀ (name : List Char) (k : Nat),
      name.length ≤ k →
      (∀ c ∈ name, c.isAlphanum = true ∨ c = '#') →
      (∀ c ∈ name, ¬(c = ';') ∧ isUniWs c = false ∧ ¬(c = '&')) →
      entScan k (name ++ rest) = name.length := by
  have hterm2 : rest = [] ∨ ∃ c cs, rest = c :: cs ∧
      (c = ';' ∨ isUniWs c = true ∨ c = '&' ∨ ¬(c.isAlphanum = true ∨ c = '#')) := hterm
  intro name
  induction name with
  | nil =>
    intro k _ _ _
    rcases hterm2 with hr | ⟨c, cs, hr, hc⟩
    · rw [hr]; cases k <;> rfl
    · rw [List.nil_append, hr]
      cases k with
      | zero => rfl
      | succ k2 =>
        show entScan (k2 + 1) (c :: cs) = 0
        unfold entScan
        by_cases hsemi : c = ';'
        · rw [if_pos hsemi]
        · rw [if_neg hsemi]
          by_cases hwamp : isUniWs c = true ∨ c = '&'
          · rw [if_pos hwamp]
          · rw [if_neg hwamp]
            have h4 : ¬(c.isAlphanum = true ∨ c = '#') := by
              rcases hc with h1 | h2 | h3 | h4
              · exact absurd h1 hsemi
              · exact absurd (Or.inl h2) hwamp
              · exact absurd (Or.inr h3) hwamp
              · exact h4
            rw [if_pos h4]
  | cons c0 cs0 ih =>
    intro k hk h1 h2
    have ha := h1 c0 (List.mem_cons_self ..)
    obtain ⟨hs, hw, hamp⟩ := h2 c0 (List.mem_cons_self ..)
    cases k with
    | zero => simp at hk
    | succ k2 =>
      show entScan (k2 + 1) (c0 :: (cs0 ++ rest)) = cs0.length + 1
      unfold entScan
      rw [if_neg hs]
      have hg2 : ¬(isUniWs c0 = true ∨ c0 = '&') := by
        rintro (hh | hh)
        · rw [hw] at hh; exact Bool.noConfusion hh
        · exact hamp hh
      rw [if_neg hg2, if_neg (not_not_intro ha)]
      rw [ih k2 (by simpa using Nat.lt_succ_iff.mp (Nat.lt_of_lt_of_le (Nat.lt_succ_self _) hk))
          (fun c hc => h1 c (List.mem_cons_of_mem _ hc))
          (fun c hc => h2 c (List.mem_cons_of_mem _ hc))]
      omega

/-- `decode_html_entity` only inspects the text from its start position
on, so decoding after any prefix is decoding at position zero. -/
theorem decodeHtmlEntity_shift (pfx l : List Char) :
    decodeHtmlEntity (pfx ++ l) pfx.length = decodeHtmlEntity l 0 := by
  have hget : ∀ (k : Nat), (pfx ++ l).get? (pfx.length + k) = l.get? k := fun k => by
    rw [List.get?_append_right (Nat.le_add_right _ _), Nat.add_sub_cancel_left]
  have hget0 : (pfx ++ l).get? pfx.length = l.get? 0 := hget 0
  have hdrop : (pfx ++ l).drop (pfx.length + 1) = l.drop 1 := by rw [List.drop_append]
  unfold decodeHtmlEntity
  dsimp only
  rw [hget0, hdrop]
  rw [show pfx.length + 1 + entScan 11 (l.drop 1) = pfx.length + (1 + entScan 11 (l.drop 1))
    from by omega]
  rw [hget (1 + entScan 11 (l.drop 1))]

/-- A named entity of the table, ended by anything that cannot extend the
name, decodes to its character; the semicolon is consumed exactly when
present. -/
theorem decode_named (name rest : List Char) (ch : Char)
    (hname : lookupEntity name = some ch) (hterm : entTerm rest) :
    decodeHtmlEntity ('&' :: name ++ rest) 0 =
      some (ch, name.length + (if rest.head? = some ';' then 2 else 1)) := by
  obtain ⟨e, he, hkey, hch⟩ :
      ∃ e, e ∈ htmlEntities ∧ e.1 = name ∧ e.2 = ch := by
    unfold lookupEntity at hname
    cases hf : htmlEntities.find? (fun e => e.1 == name) with
    | none => rw [hf] at hname; exact absurd hname (by simp)
    | some e =>
      rw [hf] at hname
      refine ⟨e, List.mem_of_find?_eq_some hf, ?_, by simpa using hname⟩
      have hp := List.find?_some hf
      simpa using hp
  obtain ⟨hne0, hlen, hhead, halnum, hguards⟩ := htmlEntities_keys_ok e he
  rw [hkey] at hne0 hlen hhead halnum hguards
  have hscan : entScan 11 (name ++ rest) = name.length :=
    entScan_exact rest hterm name 11 hlen (fun c hc => Or.inl (halnum c hc)) hguards
  have hne : ¬(name.length = 0) := fun h0 => hne0 (List.eq_nil_of_length_eq_zero h0)
  have hgetzero : ∀ (l2 : List Char), l2.get? 0 = l2.head? := fun l2 => by cases l2 <;> rfl
  unfold decodeHtmlEntity
  simp only [List.cons_append, List.get?_cons_zero, Nat.zero_add, List.drop_one,
    List.tail_cons]
  rw [if_pos trivial, hscan, if_neg hne]
  rw [List.take_left]
  rw [Nat.add_comm 1 name.length, List.get?_cons_succ,
    List.get?_append_right (Nat.le_refl _), Nat.sub_self, hgetzero]
  cases hn : name with
  | nil => exact absurd hn hne0
  | cons c0 cs0 =>
    have hc0 : ¬(c0 = '#') := by
      intro hh
      rw [hn, hh] at hhead
      exact hhead rfl
    rw [hn] at hname
    rw [stripPre_consNe '#' c0 cs0 hc0]
    dsimp only
    rw [hname]
    simp only [Option.map_some']
    by_cases hsemi : rest.head? = some ';'
    · rw [if_pos hsemi, if_pos hsemi]
    · rw [if_neg hsemi, if_neg hsemi]

/-- A decimal numeric entity, ended by anything that cannot extend the
name, decodes through `char::from_u32`; the semicolon is consumed exactly
when present. -/
theorem decode_decimal (digits rest : List Char) (v : Nat) (ch : Char)
    (hparse : parseDecU32 digits = some v) (hch : charFromU32 v = some ch)
    (hlen : digits.length ≤ 10) (hterm : entTerm rest) :
    decodeHtmlEntity ('&' :: ('#' :: digits) ++ rest) 0 =
      some (ch, (digits.length + 1) + (if rest.head? = some ';' then 2 else 1)) := by
  obtain ⟨hne0, hdig⟩ := parseDecU32_facts digits v hparse
  have hscan : entScan 11 ('#' :: (digits ++ rest)) = digits.length + 1 := by
    have h := entScan_exact rest hterm ('#' :: digits) 11
      (by simp only [List.length_cons]; omega)
      (fun c hc => by
        rcases List.mem_cons.mp hc with h1 | h2
        · exact Or.inr h1
        · exact (digitClass c (hdig c h2)).1)
      (fun c hc => by
        rcases List.mem_cons.mp hc with h1 | h2
        · subst h1; exact ⟨by decide, by decide, by decide⟩
        · exact (digitClass c (hdig c h2)).2)
    simpa using h
  have hgetzero : ∀ (l2 : List Char), l2.get? 0 = l2.head? := fun l2 => by cases l2 <;> rfl
  unfold decodeHtmlEntity
  simp only [List.cons_append, List.get?_cons_zero, Nat.zero_add, List.drop_one,
    List.tail_cons]
  rw [if_pos trivial, hscan, if_neg (by omega : ¬(digits.length + 1 = 0))]
  rw [List.take_succ_cons, List.take_left]
  rw [show (1 : Nat) + (digits.length + 1) = (digits.length + 1) + 1 from by omega,
    List.get?_cons_succ, List.get?_cons_succ,
    List.get?_append_right (Nat.le_refl _), Nat.sub_self, hgetzero]
  rw [stripPre_cons '#' digits]
  dsimp only
  cases hd0 : digits with
  | nil => exact absurd hd0 hne0
  | cons d0 ds =>
    rw [hd0] at hparse
    have hd0digit : d0.isDigit = true := hdig d0 (by rw [hd0]; exact List.mem_cons_self ..)
    have hnx : ¬(d0 = 'x') := fun he => by
      rw [he] at hd0digit; exact absurd hd0digit (by decide)
    have hnX : ¬(d0 = 'X') := fun he => by
      rw [he] at hd0digit; exact absurd hd0digit (by decide)
    rw [stripPre_consNe 'x' d0 ds hnx, stripPre_consNe 'X' d0 ds hnX]
    rw [show Option.orElse (none : Option (List Char))
      (fun _ => (none : Option (List Char))) = none from rfl]
    dsimp only
    rw [hparse]
    dsimp only
    rw [hch]
    simp only [Option.map_some']
    by_cases hsemi : rest.head? = some ';'
    · rw [if_pos hsemi, if_pos hsemi]
    · rw [if_neg hsemi, if_neg hsemi]

/-- A hexadecimal numeric entity (with `x` or `X`), ended by anything that
cannot extend the name, decodes through `char::from_u32`; the semicolon is
consumed exactly when present. -/
theorem decode_hexadecimal (xc : Char) (hex rest : List Char) (v : Nat) (ch : Char)
    (hx : xc = 'x' ∨ xc = 'X')
    (hparse : parseHexU32 hex = some v) (hch : charFromU32 v = some ch)
    (hlen : hex.length ≤ 9) (hterm : entTerm rest) :
    decodeHtmlEntity ('&' :: ('#' :: xc :: hex) ++ rest) 0 =
      some (ch, (hex.length + 2) + (if rest.head? = some ';' then 2 else 1)) := by
  obtain ⟨hne0, hhex⟩ := parseHexU32_chars hex v hparse
  have hxc : (xc.isAlphanum = true ∨ xc = '#') ∧
      (¬(xc = ';') ∧ isUniWs xc = false ∧ ¬(xc = '&')) := by
    rcases hx with h | h <;> subst h <;>
      exact ⟨Or.inl (by decide), by decide, by decide, by decide⟩
  have hscan : entScan 11 ('#' :: xc :: (hex ++ rest)) = hex.length + 2 := by
    have h := entScan_exact rest hterm ('#' :: xc :: hex) 11
      (by simp only [List.length_cons]; omega)
      (fun c hc => by
        rcases List.mem_cons.mp hc with h1 | h2
        · exact Or.inr h1
        · rcases List.mem_cons.mp h2 with h3 | h4
          · rw [h3]; exact hxc.1
          · exact (hexDigitClass c (hhex c h4)).1)
      (fun c hc => by
        rcases List.mem_cons.mp hc with h1 | h2
        · subst h1; exact ⟨by decide, by decide, by decide⟩
        · rcases List.mem_cons.mp h2 with h3 | h4
          · rw [h3]; exact hxc.2
          · exact (hexDigitClass c (hhex c h4)).2)
    simpa using h
  have hgetzero : ∀ (l2 : List Char), l2.get? 0 = l2.head? := fun l2 => by cases l2 <;> rfl
  unfold decodeHtmlEntity
  simp only [List.cons_append, List.get?_cons_zero, Nat.zero_add, List.drop_one,
    List.tail_cons]
  rw [if_pos trivial, hscan, if_neg (by omega : ¬(hex.length + 2 = 0))]
  rw [show hex.length + 2 = (hex.length + 1) + 1 from rfl,
    List.take_succ_cons, List.take_succ_cons, List.take_left]
  rw [show (1 : Nat) + ((hex.length + 1) + 1) = ((hex.length + 1) + 1) + 1 from by omega,
    List.get?_cons_succ, List.get?_cons_succ, List.get?_cons_succ,
    List.get?_append_right (Nat.le_refl _), Nat.sub_self, hgetzero]
  rw [stripPre_cons '#' (xc :: hex)]
  dsimp only
  rcases hx with hxx | hxx
  · subst hxx
    rw [stripPre_cons 'x' hex]
    rw [show Option.orElse (some hex)
      (fun _ => stripPre ['X'] ('x' :: hex)) = some hex from rfl]
    dsimp only
    rw [hparse]
    dsimp only
    rw [hch]
    simp only [Option.map_some']
    by_cases hsemi : rest.head? = some ';'
    · rw [if_pos hsemi, if_pos hsemi]
    · rw [if_neg hsemi, if_neg hsemi]
  · subst hxx
    rw [stripPre_consNe 'x' 'X' hex (by decide), stripPre_cons 'X' hex]
    rw [show Option.orElse (none : Option (List Char))
      (fun _ => some hex) = some hex from rfl]
    dsimp only
    rw [hparse]
    dsimp only
    rw [hch]
    simp only [Option.map_some']
    by_cases hsemi : rest.head? = some ';'
    · rw [if_pos hsemi, if_pos hsemi]
    · rw [if_neg hsemi, if_neg hsemi]

/-- At an ampersand whose entity decode succeeds, one step of the inline
scan emits the decoded character and advances by exactly the consumed
count. -/
theorem fiGo_entity (f : Nat) (chars : List Char) (r : Refs) (i : Nat) (acc : List Char)
    (ch : Char) (consumed : Nat)
    (hget : chars.get? i = some '&')
    (hdec : decodeHtmlEntity chars i = some (ch, consumed)) :
    fiGo (f + 1) chars r i acc = fiGo f chars r (i + consumed) (acc ++ [ch]) := by
  rw [fiGo.eq_def]
  rw [hget]
  dsimp only
  simp [hdec, (by decide : ¬('&' = tickC))]

/-- C10: entity decoding does not require a terminating semicolon, for
named and for decimal and hexadecimal numeric entities alike, at every
scan position.  (1) Whenever the decoder succeeds at an ampersand, the
inline formatter emits the decoded character and consumes exactly the
reported count.  (2) Decoding at a position after any prefix is decoding
of the remaining text.  (3) Any key of the static table, (4) any decimal
entity accepted by `u32::from_str` and `char::from_u32`, and (5) any
`x`/`X` hexadecimal entity accepted by `from_str_radix(16)` and
`char::from_u32` — in each case within the 11-character scan cap and ended
by the end of input or any character that cannot extend an entity name —
decode to the entity's character, consuming the ampersand and the entity
text, plus the semicolon exactly when one is present. -/
theorem entity_decode_no_semicolon :
    (∀ (f : Nat) (chars : List Char) (r : Refs) (i : Nat) (acc : List Char)
       (ch : Char) (consumed : Nat),
       chars.get? i = some '&' →
       decodeHtmlEntity chars i = some (ch, consumed) →
       fiGo (f + 1) chars r i acc = fiGo f chars r (i + consumed) (acc ++ [ch])) ∧
    (∀ (pfx l : List Char), decodeHtmlEntity (pfx ++ l) pfx.length = decodeHtmlEntity l 0) ∧
    (∀ (name rest : List Char) (ch : Char),
       lookupEntity name = some ch → entTerm rest →
       decodeHtmlEntity ('&' :: name ++ rest) 0 =
         some (ch, name.length + (if rest.head? = some ';' then 2 else 1))) ∧
    (∀ (digits rest : List Char) (v : Nat) (ch : Char),
       parseDecU32 digits = some v → charFromU32 v = some ch →
       digits.length ≤ 10 → entTerm rest →
       decodeHtmlEntity ('&' :: ('#' :: digits) ++ rest) 0 =
         some (ch, (digits.length + 1) + (if rest.head? = some ';' then 2 else 1))) ∧
    (∀ (xc : Char) (hex rest : List Char) (v : Nat) (ch : Char),
       (xc = 'x' ∨ xc = 'X') →
       parseHexU32 hex = some v → charFromU32 v = some ch →
       hex.length ≤ 9 → entTerm rest →
       decodeHtmlEntity ('&' :: ('#' :: xc :: hex) ++ rest) 0 =
         some (ch, (hex.length + 2) + (if rest.head? = some ';' then 2 else 1))) :=
  ⟨fiGo_entity, decodeHtmlEntity_shift, decode_named, decode_decimal, decode_hexadecimal⟩

/-- Witness for C10: `&amp` before a space, `&#65` before a space, and
`&#x41;` decode to `&`, `A`, `A`, and one formatter step on `&amp x`
consumes four characters emitting `&`. -/
theorem entity_decode_no_semicolon_witness :
    decodeHtmlEntity ('&' :: "amp".data ++ " x".data) 0 =
      some ('&', "amp".data.length + (if " x".data.head? = some ';' then 2 else 1)) ∧
    decodeHtmlEntity ('&' :: ('#' :: "65".data) ++ " ".data) 0 =
      some ('A', ("65".data.length + 1) + (if " ".data.head? = some ';' then 2 else 1)) ∧
    decodeHtmlEntity ('&' :: ('#' :: 'x' :: "41".data) ++ ";y".data) 0 =
      some ('A', ("41".data.length + 2) + (if ";y".data.head? = some ';' then 2 else 1)) ∧
    fiGo 11 "&amp x".data Refs.init 0 [] =
      fiGo 10 "&amp x".data Refs.init (0 + 4) ([] ++ ['&']) :=
  ⟨entity_decode_no_semicolon.2.2.1 "amp".data " x".data '&' (by decide)
     (Or.inr ⟨' ', "x".data, rfl, by decide⟩),
   entity_decode_no_semicolon.2.2.2.1 "65".data " ".data 65 'A' (by decide) (by decide)
     (by decide) (Or.inr ⟨' ', [], rfl, by decide⟩),
   entity_decode_no_semicolon.2.2.2.2 'x' "41".data ";y".data 65 'A' (Or.inl rfl)
     (by decide) (by decide) (by decide) (Or.inr ⟨';', "y".data, rfl, by decide⟩),
   entity_decode_no_semicolon.1 10 "&amp x".data Refs.init 0 [] '&' 4 (by decide) (by decide)⟩

end Mdstream
